import Mathlib

/-!
Verification development for the `notion-to-ssg` synchronization engine
(`src/index.js`).  The JavaScript source is shallowly embedded: JSON-like
values are the inductive `JVal`; JavaScript property access that can raise a
`TypeError` (access on `null`/`undefined`) is modelled in the `Except Unit`
monad; optional chaining, `||` and `??` are the total helpers `optChain`,
`jsOr` and `jnn`.  Numbers are modelled as `Int` (the source never computes
with them, it only passes them through).  Stateful parts (image cache,
filesystem, network) are modelled by explicit state passing; the network and
the remote database content form a `World` record.
-/

set_option maxHeartbeats 1000000

namespace NotionSSG

/-- JSON-ish runtime values, as manipulated by the exporter. -/
inductive JVal where
  | null
  | undef
  | str (s : String)
  | num (n : Int)
  | bool (b : Bool)
  | arr (xs : List JVal)
  | obj (fields : List (String × JVal))

namespace JVal

/-- JavaScript truthiness. -/
def toBool : JVal → Bool
  | .null => false
  | .undef => false
  | .str s => s ≠ ""
  | .num n => n ≠ 0
  | .bool b => b
  | .arr _ => true
  | .obj _ => true

/-- Strict comparison `v === null`. -/
def isNull : JVal → Bool
  | .null => true
  | _ => false

/-- Strict test for a string value (used to state well-formedness). -/
def isStr : JVal → Bool
  | .str _ => true
  | _ => false

end JVal

/-- First-match lookup in an object's field list; a missing key reads as
`undefined`, as in JavaScript. -/
def jlookup : List (String × JVal) → String → JVal
  | [], _ => .undef
  | kv :: rest, k => if kv.1 = k then kv.2 else jlookup rest k

/-- Total field read `v.k` for a value already known to be non-nullish
(primitives box to objects without such a property, giving `undefined`). -/
def fieldOf : JVal → String → JVal
  | .obj fs, k => jlookup fs k
  | _, _ => (.undef : JVal)

/-- Plain field access `v.k`: a `TypeError` (modelled as `.error ()`) when
`v` is `null` or `undefined`. -/
def getF (v : JVal) (k : String) : Except Unit JVal :=
  match v with
  | .null => .error ()
  | .undef => .error ()
  | v => .ok (fieldOf v k)

/-- Optional chaining `v?.k`. -/
def optChain (v : JVal) (k : String) : JVal :=
  match v with
  | .null => .undef
  | .undef => .undef
  | v => fieldOf v k

/-- JavaScript `a || b`. -/
def jsOr (a b : JVal) : JVal := if a.toBool then a else b

/-- JavaScript `a ?? b`. -/
def jnn (a b : JVal) : JVal :=
  match a with
  | .null => b
  | .undef => b
  | a => a

mutual
/-- JavaScript `String(v)` coercion (on the value subset we model). -/
def jsToStr : JVal → String
  | .null => "null"
  | .undef => "undefined"
  | .str s => s
  | .num n => toString n
  | .bool b => if b then "true" else "false"
  | .arr xs => jsToStrList xs
  | .obj _ => "[object Object]"

/-- `Array.prototype.toString`/`join(",")`: `null`/`undefined` elements print
as the empty string. -/
def jsToStrList : List JVal → String
  | [] => ""
  | [x] => jsElemStr x
  | x :: xs => jsElemStr x ++ "," ++ jsToStrList xs

/-- One array element under JS string coercion: nullish elements print as
the empty string (the cases of `jsToStr` are repeated so that the mutual
recursion stays structural). -/
def jsElemStr : JVal → String
  | .null => ""
  | .undef => ""
  | .str s => s
  | .num n => toString n
  | .bool b => if b then "true" else "false"
  | .arr xs => jsToStrList xs
  | .obj _ => "[object Object]"
end

/-- `Array.prototype.join("")` with JavaScript element coercion. -/
def jsJoin : List JVal → String
  | [] => ""
  | x :: xs => jsElemStr x ++ jsJoin xs

mutual
/-- Size measure used to justify the recursion of `normalizeRollup`
(the source recurses through object fields and array elements). -/
def jsize : JVal → Nat
  | .null => 1
  | .undef => 1
  | .str _ => 2
  | .num _ => 2
  | .bool _ => 2
  | .arr xs => 1 + jsizeL xs
  | .obj fs => 1 + jsizeF fs

def jsizeL : List JVal → Nat
  | [] => 1
  | x :: xs => 1 + jsize x + jsizeL xs

def jsizeF : List (String × JVal) → Nat
  | [] => 1
  | kv :: fs => 1 + jsize kv.2 + jsizeF fs
end

theorem jsize_pos (v : JVal) : 1 ≤ jsize v := by
  cases v <;> simp [jsize]

theorem jsizeL_pos (xs : List JVal) : 1 ≤ jsizeL xs := by
  cases xs <;> simp [jsizeL] <;> omega

theorem jsizeF_pos (fs : List (String × JVal)) : 1 ≤ jsizeF fs := by
  cases fs <;> simp [jsizeF] <;> omega

theorem jsize_of_toBool {v : JVal} (h : v.toBool = true) : 2 ≤ jsize v := by
  cases v with
  | null => simp [JVal.toBool] at h
  | undef => simp [JVal.toBool] at h
  | arr xs => have := jsizeL_pos xs; simp [jsize]; omega
  | obj fs => have := jsizeF_pos fs; simp [jsize]; omega
  | str s => simp [jsize]
  | num n => simp [jsize]
  | bool b => simp [jsize]

theorem jsize_jlookup_lt (fs : List (String × JVal)) (k : String) :
    jsize (jlookup fs k) < 1 + jsizeF fs := by
  induction fs with
  | nil => simp [jlookup, jsize, jsizeF]
  | cons kv rest ih =>
    simp only [jlookup, jsizeF]
    split
    · omega
    · omega

theorem jsize_fieldOf_lt {v : JVal} (h : v.toBool = true) (k : String) :
    jsize (fieldOf v k) < jsize v := by
  cases v with
  | null => simp [JVal.toBool] at h
  | undef => simp [JVal.toBool] at h
  | obj fs => simpa [fieldOf, jsize] using jsize_jlookup_lt fs k
  | str s => simp [fieldOf, jsize]
  | num n => simp [fieldOf, jsize]
  | bool b => simp [fieldOf, jsize]
  | arr xs => simp [fieldOf, jsize]; exact jsizeL_pos xs

/-! ### Property normalization (`src/index.js`, `normalizeRichText` .. `extractPropValue`) -/

/-- `rtArray.map((t) => t.plain_text || "")`: throws on a nullish element. -/
def richTexts : List JVal → Except Unit (List JVal)
  | [] => .ok []
  | t :: ts => do
    let pt ← getF t "plain_text"
    let rest ← richTexts ts
    .ok (jsOr pt (.str "") :: rest)

/-- `normalizeRichText` from the source: non-arrays give `""`, otherwise the
plain texts are joined with no separator. -/
def normalizeRichText (rt : JVal) : Except Unit JVal :=
  match rt with
  | .arr ts => do
    let ss ← richTexts ts
    .ok (.str (jsJoin ss))
  | _ => .ok (.str "")

/-- `p?.name || p?.person?.email || p?.id`. -/
def personVal (p : JVal) : JVal :=
  jsOr (optChain p "name") (jsOr (optChain (optChain p "person") "email") (optChain p "id"))

/-- `normalizePeople` from the source (total: it only uses optional chaining). -/
def normalizePeople (ps : JVal) : JVal :=
  match ps with
  | .arr xs => .arr ((xs.map personVal).filter JVal.toBool)
  | _ => .arr []

/-- One element of `normalizeFiles`'s map: throws on a nullish element or on a
`file`/`external` entry whose payload object is missing. -/
def fileVal (f : JVal) : Except Unit JVal := do
  let ty ← getF f "type"
  match ty with
  | .str "file" => getF (fieldOf f "file") "url"
  | .str "external" => getF (fieldOf f "external") "url"
  | _ => .ok .null

def filesVals : List JVal → Except Unit (List JVal)
  | [] => .ok []
  | f :: fs => do
    let v ← fileVal f
    let vs ← filesVals fs
    .ok (v :: vs)

/-- `normalizeFiles` from the source. -/
def normalizeFiles (files : JVal) : Except Unit JVal :=
  match files with
  | .arr xs => do
    let vs ← filesVals xs
    .ok (.arr (vs.filter JVal.toBool))
  | _ => .ok (.arr [])

/-- `rel.map((r) => r.id)`: throws on a nullish element. -/
def relIds : List JVal → Except Unit (List JVal)
  | [] => .ok []
  | r :: rs => do
    let v ← getF r "id"
    let vs ← relIds rs
    .ok (v :: vs)

/-- `normalizeRelation` from the source. -/
def normalizeRelation (rel : JVal) : Except Unit JVal :=
  match rel with
  | .arr xs => do
    let vs ← relIds xs
    .ok (.arr (vs.filter JVal.toBool))
  | _ => .ok (.arr [])

/-- `(... || []).map((m) => m.name)`: throws on a nullish element. -/
def msNames : List JVal → Except Unit (List JVal)
  | [] => .ok []
  | m :: ms => do
    let v ← getF m "name"
    let vs ← msNames ms
    .ok (v :: vs)

/-- The `multi_select` arm: `(payload || []).map((m) => m.name)`; a truthy
non-array payload raises (`.map` is not a function). -/
def normalizeMultiSelect (payload : JVal) : Except Unit JVal :=
  match jsOr payload (.arr []) with
  | .arr ms => do
    let vs ← msNames ms
    .ok (.arr vs)
  | _ => .error ()

/-- The `formula` arm of `extractPropValue`. -/
def formulaVal (f : JVal) : Except Unit JVal :=
  if f.toBool = true then
    match fieldOf f "type" with
    | .str "string" => .ok (jnn (fieldOf f "string") .null)
    | .str "number" => .ok (jnn (fieldOf f "number") .null)
    | .str "boolean" => .ok (jnn (fieldOf f "boolean") .null)
    | .str "date" => .ok (jnn (optChain (fieldOf f "date") "start") .null)
    | _ => .ok .null
  else .ok .null

mutual
/-- `normalizeRollup` from the source.  The `array` branch dispatches each
element through the inline switch (`rollupElem`), recursing on nested
rollups, then drops `null` results (`.filter((v) => v !== null)`). -/
def normalizeRollup (rollup : JVal) : Except Unit JVal :=
  if h : rollup.toBool = true then
    match fieldOf rollup "type" with
    | .str "number" => .ok (jnn (fieldOf rollup "number") .null)
    | .str "date" => .ok (jnn (optChain (fieldOf rollup "date") "start") .null)
    | .str "array" =>
      match ha : jsOr (fieldOf rollup "array") (.arr []) with
      | .arr xs => do
        let vs ← rollupElems xs
        .ok (.arr (vs.filter (fun v => !v.isNull)))
      | _ => .error ()
    | _ => .ok .null
  else .ok .null
termination_by jsize rollup
decreasing_by
  simp only [jsOr] at ha
  split at ha
  · rename_i hb
    have := jsize_fieldOf_lt h "array"
    rw [ha] at this
    simp only [jsize] at this
    omega
  · cases ha
    have := jsize_of_toBool h
    simp only [jsizeL]
    omega

def rollupElems : List JVal → Except Unit (List JVal)
  | [] => .ok []
  | el :: rest => do
    let v ← rollupElem el
    let vs ← rollupElems rest
    .ok (v :: vs)
termination_by xs => jsizeL xs
decreasing_by
  · simp only [jsizeL]; omega
  · simp only [jsizeL]; omega

/-- The per-element switch inside `normalizeRollup`'s `array` branch. -/
def rollupElem (el : JVal) : Except Unit JVal :=
  if h : el.toBool = true then
    if (fieldOf el "type").toBool = true then
      match fieldOf el "type" with
      | .str "title" => normalizeRichText (fieldOf el "title")
      | .str "rich_text" => normalizeRichText (fieldOf el "rich_text")
      | .str "people" => .ok (normalizePeople (fieldOf el "people"))
      | .str "relation" => normalizeRelation (fieldOf el "relation")
      | .str "files" => normalizeFiles (fieldOf el "files")
      | .str "number" => .ok (jnn (fieldOf el "number") .null)
      | .str "date" => .ok (jnn (optChain (fieldOf el "date") "start") .null)
      | .str "rollup" => normalizeRollup (fieldOf el "rollup")
      | .str "select" => .ok (jnn (optChain (fieldOf el "select") "name") .null)
      | .str "multi_select" => normalizeMultiSelect (fieldOf el "multi_select")
      | .str "status" => .ok (jnn (optChain (fieldOf el "status") "name") .null)
      | _ => .ok .null
    else .ok .null
  else .ok .null
termination_by jsize el
decreasing_by
  exact jsize_fieldOf_lt h "rollup"
end

/-- The body of `extractPropValue`'s switch, dispatching on the type tag
(a JavaScript `switch` over string cases is an `===` chain; a non-string tag
matches no case). -/
def extractByTag (tag : String) (prop : JVal) : Except Unit JVal :=
  if tag = "title" then normalizeRichText (fieldOf prop "title")
  else if tag = "rich_text" then normalizeRichText (fieldOf prop "rich_text")
  else if tag = "select" then .ok (jnn (optChain (fieldOf prop "select") "name") .null)
  else if tag = "multi_select" then normalizeMultiSelect (fieldOf prop "multi_select")
  else if tag = "url" then .ok (jnn (fieldOf prop "url") .null)
  else if tag = "date" then .ok (jnn (optChain (fieldOf prop "date") "start") .null)
  else if tag = "email" then .ok (jnn (fieldOf prop "email") .null)
  else if tag = "phone_number" then .ok (jnn (fieldOf prop "phone_number") .null)
  else if tag = "number" then .ok (jnn (fieldOf prop "number") .null)
  else if tag = "checkbox" then .ok (.bool (fieldOf prop "checkbox").toBool)
  else if tag = "people" then .ok (normalizePeople (fieldOf prop "people"))
  else if tag = "files" then normalizeFiles (fieldOf prop "files")
  else if tag = "relation" then normalizeRelation (fieldOf prop "relation")
  else if tag = "status" then .ok (jnn (optChain (fieldOf prop "status") "name") .null)
  else if tag = "formula" then formulaVal (fieldOf prop "formula")
  else if tag = "rollup" then normalizeRollup (fieldOf prop "rollup")
  else .ok .null

/-- `extractPropValue` from the source: the top-level dispatch over property
variants. -/
def extractPropValue (prop : JVal) : Except Unit JVal :=
  if prop.toBool = true then
    if (fieldOf prop "type").toBool = true then
      match fieldOf prop "type" with
      | .str tag => extractByTag tag prop
      | _ => .ok .null
    else .ok .null
  else .ok .null


/-! ### Well-formedness of property payloads and shape of normalized values

`wfProp` describes property values shaped like the remote API actually
produces them (the "supported variants" of the spec); `shapeOk` describes the
normalized values `extractPropValue` is claimed to produce. -/

/-- `v` is nullish (`null` or `undefined`). -/
def nullish : JVal → Bool
  | .null => true
  | .undef => true
  | _ => false

/-- `v` is a string or nullish. -/
def strOrNullish (v : JVal) : Bool := v.isStr || nullish v

/-- `v` is a number or nullish. -/
def numOrNullish : JVal → Bool
  | .num _ => true
  | .null => true
  | .undef => true
  | _ => false

/-- `v` is a boolean or nullish. -/
def boolOrNullish : JVal → Bool
  | .bool _ => true
  | .null => true
  | .undef => true
  | _ => false

/-- `v` is a string or falsy (so a truthiness filter keeps only strings). -/
def strOrFalsy (v : JVal) : Bool := v.isStr || !v.toBool

/-- A rich-text run: anything non-nullish (only `plain_text` is accessed). -/
def wfRichElem (t : JVal) : Bool := !nullish t

def wfRichArr (rt : JVal) : Bool :=
  match rt with
  | .arr ts => ts.all wfRichElem
  | _ => true

/-- A person entry: the selected `name`/`email`/`id` chain yields a string
whenever it is truthy. -/
def wfPerson (p : JVal) : Bool := strOrFalsy (personVal p)

def wfPeopleArr (ps : JVal) : Bool :=
  match ps with
  | .arr xs => xs.all wfPerson
  | _ => true

def wfFile (f : JVal) : Bool :=
  !nullish f &&
    match fieldOf f "type" with
    | .str "file" => !nullish (fieldOf f "file") && strOrFalsy (fieldOf (fieldOf f "file") "url")
    | .str "external" =>
      !nullish (fieldOf f "external") && strOrFalsy (fieldOf (fieldOf f "external") "url")
    | _ => true

def wfFilesArr (files : JVal) : Bool :=
  match files with
  | .arr xs => xs.all wfFile
  | _ => true

def wfRel (r : JVal) : Bool := !nullish r && strOrFalsy (fieldOf r "id")

def wfRelArr (rel : JVal) : Bool :=
  match rel with
  | .arr xs => xs.all wfRel
  | _ => true

def wfMsElem (m : JVal) : Bool := !nullish m && (fieldOf m "name").isStr

def wfMsArr (payload : JVal) : Bool :=
  match jsOr payload (.arr []) with
  | .arr ms => ms.all wfMsElem
  | _ => false

/-- A `date` payload: `d?.start` is a string or nullish. -/
def dateOk (d : JVal) : Bool := strOrNullish (optChain d "start")

/-- A `select`/`status` payload: `v?.name` is a string or nullish. -/
def nameOk (v : JVal) : Bool := strOrNullish (optChain v "name")

/-- Well-formed `formula` payload. -/
def wfFormula (f : JVal) : Bool :=
  if f.toBool = true then
    match fieldOf f "type" with
    | .str "string" => strOrNullish (fieldOf f "string")
    | .str "number" => numOrNullish (fieldOf f "number")
    | .str "boolean" => boolOrNullish (fieldOf f "boolean")
    | .str "date" => dateOk (fieldOf f "date")
    | _ => true
  else true

mutual
/-- Well-formed `rollup` payload. -/
def wfRollup (r : JVal) : Bool :=
  if h : r.toBool = true then
    match fieldOf r "type" with
    | .str "number" => numOrNullish (fieldOf r "number")
    | .str "date" => dateOk (fieldOf r "date")
    | .str "array" =>
      match ha : jsOr (fieldOf r "array") (.arr []) with
      | .arr xs => wfRollupElems xs
      | _ => false
    | _ => true
  else true
termination_by jsize r
decreasing_by
  simp only [jsOr] at ha
  split at ha
  · rename_i hb
    have := jsize_fieldOf_lt h "array"
    rw [ha] at this
    simp only [jsize] at this
    omega
  · cases ha
    have := jsize_of_toBool h
    simp only [jsizeL]
    omega

def wfRollupElems : List JVal → Bool
  | [] => true
  | el :: rest => wfRollupElem el && wfRollupElems rest
termination_by xs => jsizeL xs
decreasing_by
  · simp only [jsizeL]; omega
  · simp only [jsizeL]; omega

/-- Well-formed element of a rollup `array`. -/
def wfRollupElem (el : JVal) : Bool :=
  if h : el.toBool = true then
    if (fieldOf el "type").toBool = true then
      match fieldOf el "type" with
      | .str "title" => wfRichArr (fieldOf el "title")
      | .str "rich_text" => wfRichArr (fieldOf el "rich_text")
      | .str "people" => wfPeopleArr (fieldOf el "people")
      | .str "relation" => wfRelArr (fieldOf el "relation")
      | .str "files" => wfFilesArr (fieldOf el "files")
      | .str "number" => numOrNullish (fieldOf el "number")
      | .str "date" => dateOk (fieldOf el "date")
      | .str "rollup" => wfRollup (fieldOf el "rollup")
      | .str "select" => nameOk (fieldOf el "select")
      | .str "multi_select" => wfMsArr (fieldOf el "multi_select")
      | .str "status" => nameOk (fieldOf el "status")
      | _ => true
    else true
  else true
termination_by jsize el
decreasing_by
  exact jsize_fieldOf_lt h "rollup"
end

/-- Well-formedness for one type tag, mirroring `extractByTag`. -/
def wfByTag (tag : String) (prop : JVal) : Bool :=
  if tag = "title" then wfRichArr (fieldOf prop "title")
  else if tag = "rich_text" then wfRichArr (fieldOf prop "rich_text")
  else if tag = "select" then nameOk (fieldOf prop "select")
  else if tag = "multi_select" then wfMsArr (fieldOf prop "multi_select")
  else if tag = "url" then strOrNullish (fieldOf prop "url")
  else if tag = "date" then dateOk (fieldOf prop "date")
  else if tag = "email" then strOrNullish (fieldOf prop "email")
  else if tag = "phone_number" then strOrNullish (fieldOf prop "phone_number")
  else if tag = "number" then numOrNullish (fieldOf prop "number")
  else if tag = "checkbox" then true
  else if tag = "people" then wfPeopleArr (fieldOf prop "people")
  else if tag = "files" then wfFilesArr (fieldOf prop "files")
  else if tag = "relation" then wfRelArr (fieldOf prop "relation")
  else if tag = "status" then nameOk (fieldOf prop "status")
  else if tag = "formula" then wfFormula (fieldOf prop "formula")
  else if tag = "rollup" then wfRollup (fieldOf prop "rollup")
  else true

/-- Well-formed property value: the shapes the remote API produces for the
supported variants; everything non-object, with a falsy or non-string type
tag, or with an unknown type tag is also fine (those normalize to `null`). -/
def wfProp (prop : JVal) : Bool :=
  if prop.toBool = true then
    if (fieldOf prop "type").toBool = true then
      match fieldOf prop "type" with
      | .str tag => wfByTag tag prop
      | _ => true
    else true
  else true

mutual
/-- Normalized-value shape: a scalar (`string`/`number`/`boolean`/`null`) or
a possibly nested array of such values. -/
def shapeOk : JVal → Bool
  | .null => true
  | .str _ => true
  | .num _ => true
  | .bool _ => true
  | .arr xs => shapeOkL xs
  | .undef => false
  | .obj _ => false

def shapeOkL : List JVal → Bool
  | [] => true
  | x :: xs => shapeOk x && shapeOkL xs
end

/-! ### Totality and shape lemmas for the normalizers -/

theorem getF_ok {v : JVal} (h : nullish v = false) (k : String) :
    getF v k = .ok (fieldOf v k) := by
  cases v <;> simp_all [nullish, getF]

theorem bindE {α β : Type} {e : Type} (a : α) (f : α → Except e β) :
    (Except.ok a >>= f : Except e β) = f a := rfl

theorem shape_jnn_str {v : JVal} (h : strOrNullish v = true) :
    shapeOk (jnn v .null) = true := by
  cases v <;> simp_all [strOrNullish, JVal.isStr, nullish, jnn, shapeOk]

theorem shape_jnn_num {v : JVal} (h : numOrNullish v = true) :
    shapeOk (jnn v .null) = true := by
  cases v <;> simp_all [numOrNullish, jnn, shapeOk]

theorem shape_jnn_bool {v : JVal} (h : boolOrNullish v = true) :
    shapeOk (jnn v .null) = true := by
  cases v <;> simp_all [boolOrNullish, jnn, shapeOk]

theorem richTexts_ok {ts : List JVal} (h : ts.all wfRichElem = true) :
    ∃ ss, richTexts ts = .ok ss := by
  induction ts with
  | nil => exact ⟨[], rfl⟩
  | cons t ts ih =>
    simp only [List.all_cons, Bool.and_eq_true] at h
    obtain ⟨ss, hss⟩ := ih h.2
    refine ⟨jsOr (fieldOf t "plain_text") (.str "") :: ss, ?_⟩
    simp [richTexts, getF_ok (by simpa [wfRichElem] using h.1), hss, bindE]

theorem normalizeRichText_ok {rt : JVal} (h : wfRichArr rt = true) :
    ∃ s, normalizeRichText rt = .ok (.str s) := by
  cases rt with
  | arr ts =>
    obtain ⟨ss, hss⟩ := richTexts_ok (by simpa [wfRichArr] using h)
    exact ⟨jsJoin ss, by simp [normalizeRichText, hss, bindE]⟩
  | null => exact ⟨"", rfl⟩
  | undef => exact ⟨"", rfl⟩
  | str s => exact ⟨"", rfl⟩
  | num n => exact ⟨"", rfl⟩
  | bool b => exact ⟨"", rfl⟩
  | obj fs => exact ⟨"", rfl⟩

theorem filter_toBool_shape {l : List JVal} (h : ∀ x ∈ l, strOrFalsy x = true) :
    shapeOkL (l.filter JVal.toBool) = true := by
  induction l with
  | nil => simp [shapeOkL]
  | cons x xs ih =>
    have hx := h x (by simp)
    have hxs := ih fun y hy => h y (by simp [hy])
    by_cases hb : x.toBool = true
    · have : x.isStr = true := by
        cases x <;> simp_all [strOrFalsy, JVal.isStr, JVal.toBool]
      cases x <;> simp_all [List.filter, shapeOkL, shapeOk, JVal.isStr]
    · simp [List.filter, hb, hxs]

theorem normalizePeople_shape {ps : JVal} (h : wfPeopleArr ps = true) :
    shapeOk (normalizePeople ps) = true := by
  cases ps with
  | arr xs =>
    simp only [wfPeopleArr, List.all_eq_true] at h
    simp only [normalizePeople, shapeOk]
    refine filter_toBool_shape ?_
    intro x hx
    obtain ⟨p, hp, rfl⟩ := List.mem_map.mp hx
    exact h p hp
  | null => rfl
  | undef => rfl
  | str s => rfl
  | num n => rfl
  | bool b => rfl
  | obj fs => rfl

theorem fileVal_ok {f : JVal} (h : wfFile f = true) :
    ∃ v, fileVal f = .ok v ∧ strOrFalsy v = true := by
  simp only [wfFile, Bool.and_eq_true, Bool.not_eq_true'] at h
  obtain ⟨hn, hm⟩ := h
  simp only [fileVal, getF_ok hn, bindE]
  split at hm
  · simp only [Bool.and_eq_true, Bool.not_eq_true'] at hm
    exact ⟨fieldOf (fieldOf f "file") "url", getF_ok hm.1 "url", hm.2⟩
  · simp only [Bool.and_eq_true, Bool.not_eq_true'] at hm
    exact ⟨fieldOf (fieldOf f "external") "url", getF_ok hm.1 "url", hm.2⟩
  · exact ⟨.null, rfl, rfl⟩

theorem filesVals_ok {xs : List JVal} (h : xs.all wfFile = true) :
    ∃ vs, filesVals xs = .ok vs ∧ ∀ v ∈ vs, strOrFalsy v = true := by
  induction xs with
  | nil => exact ⟨[], rfl, by simp⟩
  | cons f fs ih =>
    simp only [List.all_cons, Bool.and_eq_true] at h
    obtain ⟨v, hv, hvs⟩ := fileVal_ok h.1
    obtain ⟨vs, hrec, hall⟩ := ih h.2
    refine ⟨v :: vs, ?_, ?_⟩
    · simp [filesVals, hv, hrec, bindE]
    · intro x hx
      rcases List.mem_cons.mp hx with rfl | hx
      · exact hvs
      · exact hall x hx

theorem normalizeFiles_ok {files : JVal} (h : wfFilesArr files = true) :
    ∃ v, normalizeFiles files = .ok v ∧ shapeOk v = true := by
  cases files with
  | arr xs =>
    obtain ⟨vs, hvs, hall⟩ := filesVals_ok (by simpa [wfFilesArr] using h)
    refine ⟨.arr (vs.filter JVal.toBool), ?_, ?_⟩
    · simp [normalizeFiles, hvs, bindE]
    · simpa [shapeOk] using filter_toBool_shape hall
  | null => exact ⟨.arr [], rfl, rfl⟩
  | undef => exact ⟨.arr [], rfl, rfl⟩
  | str s => exact ⟨.arr [], rfl, rfl⟩
  | num n => exact ⟨.arr [], rfl, rfl⟩
  | bool b => exact ⟨.arr [], rfl, rfl⟩
  | obj fs => exact ⟨.arr [], rfl, rfl⟩

theorem relIds_ok {xs : List JVal} (h : xs.all wfRel = true) :
    ∃ vs, relIds xs = .ok vs ∧ ∀ v ∈ vs, strOrFalsy v = true := by
  induction xs with
  | nil => exact ⟨[], rfl, by simp⟩
  | cons r rs ih =>
    simp only [List.all_cons, Bool.and_eq_true] at h
    have h1 := h.1
    simp only [wfRel, Bool.and_eq_true, Bool.not_eq_true'] at h1
    obtain ⟨vs, hrec, hall⟩ := ih h.2
    refine ⟨fieldOf r "id" :: vs, ?_, ?_⟩
    · simp [relIds, getF_ok h1.1, hrec, bindE]
    · intro x hx
      rcases List.mem_cons.mp hx with rfl | hx
      · exact h1.2
      · exact hall x hx

theorem normalizeRelation_ok {rel : JVal} (h : wfRelArr rel = true) :
    ∃ v, normalizeRelation rel = .ok v ∧ shapeOk v = true := by
  cases rel with
  | arr xs =>
    obtain ⟨vs, hvs, hall⟩ := relIds_ok (by simpa [wfRelArr] using h)
    refine ⟨.arr (vs.filter JVal.toBool), ?_, ?_⟩
    · simp [normalizeRelation, hvs, bindE]
    · simpa [shapeOk] using filter_toBool_shape hall
  | null => exact ⟨.arr [], rfl, rfl⟩
  | undef => exact ⟨.arr [], rfl, rfl⟩
  | str s => exact ⟨.arr [], rfl, rfl⟩
  | num n => exact ⟨.arr [], rfl, rfl⟩
  | bool b => exact ⟨.arr [], rfl, rfl⟩
  | obj fs => exact ⟨.arr [], rfl, rfl⟩

theorem msNames_ok {ms : List JVal} (h : ms.all wfMsElem = true) :
    ∃ vs, msNames ms = .ok vs ∧ shapeOkL vs = true := by
  induction ms with
  | nil => exact ⟨[], rfl, rfl⟩
  | cons m rest ih =>
    simp only [List.all_cons, Bool.and_eq_true] at h
    have h1 := h.1
    simp only [wfMsElem, Bool.and_eq_true, Bool.not_eq_true'] at h1
    obtain ⟨vs, hrec, hall⟩ := ih h.2
    refine ⟨fieldOf m "name" :: vs, ?_, ?_⟩
    · simp [msNames, getF_ok h1.1, hrec, bindE]
    · have : shapeOk (fieldOf m "name") = true := by
        rcases hf : fieldOf m "name" with _ | _ | s | n | b | xs | fs <;>
          simp_all [JVal.isStr, shapeOk]
      simp [shapeOkL, this, hall]

theorem normalizeMultiSelect_ok {payload : JVal} (h : wfMsArr payload = true) :
    ∃ v, normalizeMultiSelect payload = .ok v ∧ shapeOk v = true := by
  unfold wfMsArr at h
  unfold normalizeMultiSelect
  split
  · rename_i ms ha
    rw [ha] at h
    simp only at h
    obtain ⟨vs, hvs, hsh⟩ := msNames_ok h
    exact ⟨.arr vs, by simp [hvs, bindE], by simpa [shapeOk] using hsh⟩
  · rename_i ha
    split at h
    · rename_i ms ha2
      exact absurd ha2 (ha ms)
    · simp at h

theorem formulaVal_ok {f : JVal} (h : wfFormula f = true) :
    ∃ v, formulaVal f = .ok v ∧ shapeOk v = true := by
  unfold wfFormula at h
  unfold formulaVal
  by_cases hb : f.toBool = true
  · rw [if_pos hb] at h ⊢
    split
    · rename_i h2; rw [h2] at h; simp only at h
      exact ⟨_, rfl, shape_jnn_str h⟩
    · rename_i h2; rw [h2] at h; simp only at h
      exact ⟨_, rfl, shape_jnn_num h⟩
    · rename_i h2; rw [h2] at h; simp only at h
      exact ⟨_, rfl, shape_jnn_bool h⟩
    · rename_i h2; rw [h2] at h; simp only at h
      exact ⟨_, rfl, shape_jnn_str h⟩
    · exact ⟨.null, rfl, rfl⟩
  · rw [if_neg hb]
    exact ⟨.null, rfl, rfl⟩

theorem shapeOkL_filter {vs : List JVal} (p : JVal → Bool) (h : shapeOkL vs = true) :
    shapeOkL (vs.filter p) = true := by
  induction vs with
  | nil => simp [shapeOkL]
  | cons v rest ih =>
    simp only [shapeOkL, Bool.and_eq_true] at h
    by_cases hp : p v = true
    · simp [List.filter, hp, shapeOkL, h.1, ih h.2]
    · simp [List.filter, hp, ih h.2]

/-- Totality and shape of `normalizeRollup` on well-formed payloads, by
strong induction on the size measure. -/
theorem rollup_tot_aux (n : Nat) :
    (∀ r, jsize r ≤ n → wfRollup r = true →
      ∃ v, normalizeRollup r = .ok v ∧ shapeOk v = true) ∧
    (∀ xs, jsizeL xs ≤ n → wfRollupElems xs = true →
      ∃ vs, rollupElems xs = .ok vs ∧ shapeOkL vs = true) ∧
    (∀ el, jsize el ≤ n → wfRollupElem el = true →
      ∃ v, rollupElem el = .ok v ∧ shapeOk v = true) := by
  induction n with
  | zero =>
    refine ⟨fun r hsz _ => absurd hsz (by have := jsize_pos r; omega),
            fun xs hsz _ => absurd hsz (by have := jsizeL_pos xs; omega),
            fun el hsz _ => absurd hsz (by have := jsize_pos el; omega)⟩
  | succ n ih =>
    refine ⟨?_, ?_, ?_⟩
    · -- normalizeRollup
      intro r hsz hwf
      by_cases hb : r.toBool = true
      · unfold normalizeRollup
        unfold wfRollup at hwf
        rw [dif_pos hb] at hwf ⊢
        split
        · rename_i hty
          rw [hty] at hwf
          simp only at hwf
          exact ⟨_, rfl, shape_jnn_num hwf⟩
        · rename_i hty
          rw [hty] at hwf
          simp only at hwf
          exact ⟨_, rfl, shape_jnn_str hwf⟩
        · rename_i hty
          rw [hty] at hwf
          simp only at hwf
          split
          · rename_i xs ha
            rw [ha] at hwf
            have hxs : jsizeL xs ≤ n := by
              simp only [jsOr] at ha
              split at ha
              · have := jsize_fieldOf_lt hb "array"
                rw [ha] at this
                simp only [jsize] at this
                omega
              · cases ha
                have := jsize_of_toBool hb
                simp only [jsizeL]
                omega
            obtain ⟨vs, hvs, hsh⟩ := ih.2.1 xs hxs hwf
            exact ⟨.arr (vs.filter (fun v => !v.isNull)), by simp [hvs, bindE],
              by simpa [shapeOk] using shapeOkL_filter _ hsh⟩
          · rename_i ha
            split at hwf
            · rename_i xs ha2
              exact absurd ha2 (ha xs)
            · simp at hwf
        · exact ⟨.null, rfl, rfl⟩
      · unfold normalizeRollup
        rw [dif_neg hb]
        exact ⟨.null, rfl, rfl⟩
    · -- rollupElems
      intro xs hsz hwf
      cases xs with
      | nil => exact ⟨[], by unfold rollupElems; rfl, rfl⟩
      | cons el rest =>
        unfold rollupElems
        unfold wfRollupElems at hwf
        simp only [Bool.and_eq_true] at hwf
        have h1 : jsize el ≤ n := by simp only [jsizeL] at hsz; omega
        have h2 : jsizeL rest ≤ n := by
          simp only [jsizeL] at hsz
          have := jsize_pos el
          omega
        obtain ⟨v, hv, hvs⟩ := ih.2.2 el h1 hwf.1
        obtain ⟨vs, hrec, hall⟩ := ih.2.1 rest h2 hwf.2
        exact ⟨v :: vs, by simp [hv, hrec, bindE], by simp [shapeOkL, hvs, hall]⟩
    · -- rollupElem
      intro el hsz hwf
      by_cases hb : el.toBool = true
      · unfold rollupElem
        unfold wfRollupElem at hwf
        rw [dif_pos hb] at hwf ⊢
        by_cases ht : (fieldOf el "type").toBool = true
        · rw [if_pos ht] at hwf ⊢
          split
          · rename_i h; rw [h] at hwf; simp at hwf
            obtain ⟨s, hs⟩ := normalizeRichText_ok hwf
            exact ⟨.str s, hs, rfl⟩
          · rename_i h; rw [h] at hwf; simp at hwf
            obtain ⟨s, hs⟩ := normalizeRichText_ok hwf
            exact ⟨.str s, hs, rfl⟩
          · rename_i h; rw [h] at hwf; simp at hwf
            exact ⟨_, rfl, normalizePeople_shape hwf⟩
          · rename_i h; rw [h] at hwf; simp at hwf
            obtain ⟨v, hv, hsh⟩ := normalizeRelation_ok hwf
            exact ⟨v, hv, hsh⟩
          · rename_i h; rw [h] at hwf; simp at hwf
            obtain ⟨v, hv, hsh⟩ := normalizeFiles_ok hwf
            exact ⟨v, hv, hsh⟩
          · rename_i h; rw [h] at hwf; simp at hwf
            exact ⟨_, rfl, shape_jnn_num hwf⟩
          · rename_i h; rw [h] at hwf; simp at hwf
            exact ⟨_, rfl, shape_jnn_str hwf⟩
          · rename_i h; rw [h] at hwf; simp at hwf
            have hsub : jsize (fieldOf el "rollup") ≤ n := by
              have := jsize_fieldOf_lt hb "rollup"
              omega
            exact ih.1 (fieldOf el "rollup") hsub hwf
          · rename_i h; rw [h] at hwf; simp at hwf
            exact ⟨_, rfl, shape_jnn_str hwf⟩
          · rename_i h; rw [h] at hwf; simp only at hwf
            exact normalizeMultiSelect_ok hwf
          · rename_i h; rw [h] at hwf; simp at hwf
            exact ⟨_, rfl, shape_jnn_str hwf⟩
          · exact ⟨.null, rfl, rfl⟩
        · rw [if_neg ht]
          exact ⟨.null, rfl, rfl⟩
      · unfold rollupElem
        rw [dif_neg hb]
        exact ⟨.null, rfl, rfl⟩

/-- Totality and shape of `extractPropValue` on well-formed property values. -/
theorem extract_tot (prop : JVal) (hwf : wfProp prop = true) :
    ∃ v, extractPropValue prop = .ok v ∧ shapeOk v = true := by
  by_cases hb : prop.toBool = true
  · unfold extractPropValue
    unfold wfProp at hwf
    rw [if_pos hb] at hwf ⊢
    by_cases ht : (fieldOf prop "type").toBool = true
    · rw [if_pos ht] at hwf ⊢
      rcases hT : fieldOf prop "type" with _ | _ | tag | n | b | xs | fs2
      · exact ⟨.null, rfl, rfl⟩
      · exact ⟨.null, rfl, rfl⟩
      · rw [hT] at hwf
        have hwf2 : wfByTag tag prop = true := hwf
        show ∃ v, extractByTag tag prop = .ok v ∧ shapeOk v = true
        clear hwf
        rename' hwf2 => hwf
        unfold extractByTag
        unfold wfByTag at hwf
        by_cases hc1 : tag = "title"
        · rw [if_pos hc1] at hwf ⊢
          obtain ⟨s2, hs⟩ := normalizeRichText_ok hwf
          exact ⟨.str s2, hs, rfl⟩
        rw [if_neg hc1] at hwf ⊢
        by_cases hc2 : tag = "rich_text"
        · rw [if_pos hc2] at hwf ⊢
          obtain ⟨s2, hs⟩ := normalizeRichText_ok hwf
          exact ⟨.str s2, hs, rfl⟩
        rw [if_neg hc2] at hwf ⊢
        by_cases hc3 : tag = "select"
        · rw [if_pos hc3] at hwf ⊢
          exact ⟨_, rfl, shape_jnn_str hwf⟩
        rw [if_neg hc3] at hwf ⊢
        by_cases hc4 : tag = "multi_select"
        · rw [if_pos hc4] at hwf ⊢
          exact normalizeMultiSelect_ok hwf
        rw [if_neg hc4] at hwf ⊢
        by_cases hc5 : tag = "url"
        · rw [if_pos hc5] at hwf ⊢
          exact ⟨_, rfl, shape_jnn_str hwf⟩
        rw [if_neg hc5] at hwf ⊢
        by_cases hc6 : tag = "date"
        · rw [if_pos hc6] at hwf ⊢
          exact ⟨_, rfl, shape_jnn_str hwf⟩
        rw [if_neg hc6] at hwf ⊢
        by_cases hc7 : tag = "email"
        · rw [if_pos hc7] at hwf ⊢
          exact ⟨_, rfl, shape_jnn_str hwf⟩
        rw [if_neg hc7] at hwf ⊢
        by_cases hc8 : tag = "phone_number"
        · rw [if_pos hc8] at hwf ⊢
          exact ⟨_, rfl, shape_jnn_str hwf⟩
        rw [if_neg hc8] at hwf ⊢
        by_cases hc9 : tag = "number"
        · rw [if_pos hc9] at hwf ⊢
          exact ⟨_, rfl, shape_jnn_num hwf⟩
        rw [if_neg hc9] at hwf ⊢
        by_cases hc10 : tag = "checkbox"
        · rw [if_pos hc10] at hwf ⊢
          exact ⟨_, rfl, by simp [shapeOk]⟩
        rw [if_neg hc10] at hwf ⊢
        by_cases hc11 : tag = "people"
        · rw [if_pos hc11] at hwf ⊢
          exact ⟨_, rfl, normalizePeople_shape hwf⟩
        rw [if_neg hc11] at hwf ⊢
        by_cases hc12 : tag = "files"
        · rw [if_pos hc12] at hwf ⊢
          exact normalizeFiles_ok hwf
        rw [if_neg hc12] at hwf ⊢
        by_cases hc13 : tag = "relation"
        · rw [if_pos hc13] at hwf ⊢
          exact normalizeRelation_ok hwf
        rw [if_neg hc13] at hwf ⊢
        by_cases hc14 : tag = "status"
        · rw [if_pos hc14] at hwf ⊢
          exact ⟨_, rfl, shape_jnn_str hwf⟩
        rw [if_neg hc14] at hwf ⊢
        by_cases hc15 : tag = "formula"
        · rw [if_pos hc15] at hwf ⊢
          exact formulaVal_ok hwf
        rw [if_neg hc15] at hwf ⊢
        by_cases hc16 : tag = "rollup"
        · rw [if_pos hc16] at hwf ⊢
          exact (rollup_tot_aux (jsize (fieldOf prop "rollup"))).1 _ le_rfl hwf
        rw [if_neg hc16] at hwf ⊢
        exact ⟨.null, rfl, rfl⟩
      · exact ⟨.null, rfl, rfl⟩
      · exact ⟨.null, rfl, rfl⟩
      · exact ⟨.null, rfl, rfl⟩
      · exact ⟨.null, rfl, rfl⟩
    · rw [if_neg ht]
      exact ⟨.null, rfl, rfl⟩
  · unfold extractPropValue
    rw [if_neg hb]
    exact ⟨.null, rfl, rfl⟩

/-- The property type tags `extractPropValue` dispatches on. -/
def knownPropTypes : List String :=
  ["title", "rich_text", "select", "multi_select", "url", "date", "email", "phone_number",
   "number", "checkbox", "people", "files", "relation", "status", "formula", "rollup"]

/-- Unknown variants normalize to `null` rather than raising. -/
theorem extract_unknown (fs : List (String × JVal)) (t : String)
    (hty : jlookup fs "type" = .str t) (hne : t ∉ knownPropTypes) :
    extractPropValue (.obj fs) = .ok .null := by
  have hf : fieldOf (JVal.obj fs) "type" = .str t := by simp [fieldOf, hty]
  simp only [knownPropTypes, List.mem_cons, List.not_mem_nil, or_false] at hne
  push_neg at hne
  unfold extractPropValue
  rw [if_pos (by rfl)]
  by_cases ht : (fieldOf (JVal.obj fs) "type").toBool = true
  · rw [if_pos ht, hf]
    show extractByTag t (JVal.obj fs) = .ok .null
    unfold extractByTag
    rw [if_neg hne.1, if_neg hne.2.1, if_neg hne.2.2.1, if_neg hne.2.2.2.1,
      if_neg hne.2.2.2.2.1, if_neg hne.2.2.2.2.2.1, if_neg hne.2.2.2.2.2.2.1,
      if_neg hne.2.2.2.2.2.2.2.1, if_neg hne.2.2.2.2.2.2.2.2.1,
      if_neg hne.2.2.2.2.2.2.2.2.2.1, if_neg hne.2.2.2.2.2.2.2.2.2.2.1,
      if_neg hne.2.2.2.2.2.2.2.2.2.2.2.1, if_neg hne.2.2.2.2.2.2.2.2.2.2.2.2.1,
      if_neg hne.2.2.2.2.2.2.2.2.2.2.2.2.2.1,
      if_neg hne.2.2.2.2.2.2.2.2.2.2.2.2.2.2.1,
      if_neg hne.2.2.2.2.2.2.2.2.2.2.2.2.2.2.2]
  · rw [if_neg ht]

/-! ### Claim C3 -/

/-- C3, counterexample: the claim says `extractPropValue` never throws, for
malformed inputs included; but on the malformed `relation` property
`{ type: "relation", relation: [null] }` the source evaluates
`rel.map((r) => r.id)` and dereferences the `null` element, raising a
`TypeError`. -/
theorem C3_counterexample :
    extractPropValue (.obj [("type", .str "relation"), ("relation", .arr [.null])]) =
      .error () := rfl

/-- C3 (amended): on well-formed property values — the shapes the remote API
produces for supported variants — `extractPropValue` never throws and
returns a scalar (string, number, boolean, null) or a possibly nested array
of scalars, and a property whose type tag is an unknown string yields `null`
rather than an exception; on malformed payloads (such as a `null` element in
a `relation`, `rich_text`, `files` or `multi_select` array) it can throw. -/
theorem C3_extract_total :
    (∀ prop, wfProp prop = true →
      ∃ v, extractPropValue prop = .ok v ∧ shapeOk v = true) ∧
    (∀ fs t, jlookup fs "type" = .str t → t ∉ knownPropTypes →
      extractPropValue (.obj fs) = .ok .null) :=
  ⟨extract_tot, extract_unknown⟩

/-- Witness for C3 at concrete inputs: a `checkbox` property and an
unknown-variant property. -/
theorem C3_extract_total_witness :
    (wfProp (.obj [("type", .str "checkbox"), ("checkbox", .bool false)]) = true ∧
      ∃ v, extractPropValue (.obj [("type", .str "checkbox"), ("checkbox", .bool false)]) =
          .ok v ∧ shapeOk v = true) ∧
    (jlookup [("type", .str "mystery")] "type" = .str "mystery" ∧
      "mystery" ∉ knownPropTypes ∧
      extractPropValue (.obj [("type", .str "mystery")]) = .ok .null) :=
  ⟨⟨rfl, C3_extract_total.1 _ rfl⟩,
   rfl, by decide,
   C3_extract_total.2 [("type", .str "mystery")] "mystery" rfl (by decide)⟩

/-! ### Slug generation (`toSlug`, `getFirstTitleText`, `buildSlug`) -/

/-- Whitespace, as matched by the slugifier's regexes on the inputs we
model. -/
def isWs (c : Char) : Bool := c = ' ' || c = '\t' || c = '\n' || c = '\r'

/-- ASCII `toLowerCase`, as an explicit table. -/
def lowerChar : Char → Char
  | 'A' => 'a'
  | 'B' => 'b'
  | 'C' => 'c'
  | 'D' => 'd'
  | 'E' => 'e'
  | 'F' => 'f'
  | 'G' => 'g'
  | 'H' => 'h'
  | 'I' => 'i'
  | 'J' => 'j'
  | 'K' => 'k'
  | 'L' => 'l'
  | 'M' => 'm'
  | 'N' => 'n'
  | 'O' => 'o'
  | 'P' => 'p'
  | 'Q' => 'q'
  | 'R' => 'r'
  | 'S' => 's'
  | 'T' => 't'
  | 'U' => 'u'
  | 'V' => 'v'
  | 'W' => 'w'
  | 'X' => 'x'
  | 'Y' => 'y'
  | 'Z' => 'z'
  | c => c

/-- The punctuation removed by the source's custom `remove` regex
`[*+~.()'":@/?]` (the apostrophe is written by code). -/
def removeSet : List Char :=
  ['*', '+', '~', '.', '(', ')', Char.ofNat 39, '"', ':', '@', '/', '?']

def isAsciiAlnum (c : Char) : Bool :=
  ('A' ≤ c && c ≤ 'Z') || ('a' ≤ c && c ≤ 'z') || ('0' ≤ c && c ≤ '9')

def trimChars (cs : List Char) : List Char :=
  ((cs.dropWhile isWs).reverse.dropWhile isWs).reverse

/-- JS `String.prototype.trim` (on the whitespace we model). -/
def jsTrim (s : String) : String := String.mk (trimChars s.toList)

/-- `replace(/\s+/g, "-")`: each maximal whitespace run becomes one `-`
(the flag records whether we are inside a run already emitted as `-`). -/
def collapseWsAux : Bool → List Char → List Char
  | _, [] => []
  | inWs, c :: cs =>
    if isWs c then
      if inWs then collapseWsAux true cs else '-' :: collapseWsAux true cs
    else c :: collapseWsAux false cs

def collapseWs (cs : List Char) : List Char := collapseWsAux false cs

/-- The `slugify` library call with the source's fixed options
(`lower`, `strict: true`, `locale: "fr"`, custom `remove`, `trim: true`):
the replacement character `-` reads as a space, the custom remove-set is
dropped per character, `strict` keeps only ASCII alphanumerics and
whitespace, the result is trimmed, whitespace runs become single `-`, and
the result is optionally lowercased.  (The French charmap only rewrites
non-ASCII letters, which we do not model.) -/
def toSlug (s : String) (lower : Bool) : String :=
  let cs := s.toList.map fun c => if c = '-' then ' ' else c
  let cs := cs.filter fun c => !removeSet.contains c
  let cs := cs.filter fun c => isAsciiAlnum c || isWs c
  let cs := trimChars cs
  let cs := collapseWs cs
  let cs := if lower then cs.map lowerChar else cs
  String.mk cs

/-- A markdown inline link occurrence, as found by the source's
`/!?\[([^\]]*)\]\(([^)]+)\)/g` scan; page bodies are modelled at the
granularity of these occurrences plus surrounding plain text. -/
inductive Tok where
  | text (s : String)
  | link (img : Bool) (alt : String) (url : String)
deriving DecidableEq, Repr

/-- A remote page snapshot: identifier, typed properties, cover and icon
references, and the body as converted to markdown (`none` models a
conversion failure of `pageToMarkdown`/`toMarkdownString`). -/
structure Page where
  id : String
  properties : List (String × JVal)
  cover : JVal
  icon : JVal
  bodyConv : Option (List Tok)

/-- The first property whose `type` is `"title"` and whose `title` payload
is a nonempty array (the source loop returns at the first such property). -/
def firstTitle : List (String × JVal) → Option (List JVal)
  | [] => none
  | (_, v) :: rest =>
    match optChain v "type", fieldOf v "title" with
    | .str "title", .arr (t :: ts) => some (t :: ts)
    | _, _ => firstTitle rest

/-- `getFirstTitleText` from the source: the joined, trimmed plain text of
the first title property, or JS `null` when absent or blank. -/
def getFirstTitleText (page : Page) : Except Unit JVal :=
  match firstTitle page.properties with
  | none => .ok .null
  | some ts => do
    let ss ← richTexts ts
    let s := jsTrim (jsJoin ss)
    .ok (if s = "" then .null else .str s)

/-- A slug rule from the configuration (`from`/`fallback`/`lower`; `from`
is a Lean keyword, hence `fromKey`). -/
structure SlugConf where
  fromKey : String
  fallback : String
  lower : Option Bool
deriving DecidableEq, Repr

/-- The initial `base` computed by `buildSlug` before the fallback. -/
def baseOf (page : Page) (sc : SlugConf) : Except Unit JVal :=
  if sc.fromKey = "title" then getFirstTitleText page
  else if sc.fromKey = "id" then .ok (.str page.id)
  else if sc.fromKey ≠ "" ∧ (jlookup page.properties sc.fromKey).toBool = true then
    extractPropValue (jlookup page.properties sc.fromKey)
  else .ok .null

/-- `buildSlug` from the source. -/
def buildSlug (page : Page) (sc : SlugConf) : Except Unit String := do
  let b ← baseOf page sc
  let b ←
    if b.toBool = false ∨ jsTrim (jsToStr b) = "" then
      if sc.fallback = "id" then pure (.str page.id)
      else do
        let t ← getFirstTitleText page
        pure (jsOr t (.str page.id))
    else pure b
  pure (toSlug (jsToStr b) (sc.lower != some false))

/-- First-occurrence substring replacement (JS `String.replace` with a
string pattern replaces only the first occurrence). -/
def splitFirst (pat : List Char) : List Char → Option (List Char × List Char)
  | [] => if pat = [] then some ([], []) else none
  | c :: cs =>
    if pat.isPrefixOf (c :: cs) then some ([], (c :: cs).drop pat.length)
    else
      match splitFirst pat cs with
      | some (pre, post) => some (c :: pre, post)
      | none => none

def replaceFirst (s pat rep : String) : String :=
  match splitFirst pat.toList s.toList with
  | some (pre, post) => String.mk pre ++ rep ++ String.mk post
  | none => s

/-- `renderPermalink` from the source: the single `{slug}` placeholder is
substituted (JS `replace` with a string pattern: first occurrence). -/
def renderPermalink (tpl : String) (slug : String) : String :=
  replaceFirst tpl "{slug}" slug

/-! ### Non-emptiness of slugs containing an alphanumeric character -/

theorem mem_dropWhile_of_not {α : Type} (p : α → Bool) {c : α} {l : List α}
    (hc : c ∈ l) (hp : p c = false) : c ∈ l.dropWhile p := by
  induction l with
  | nil => cases hc
  | cons a l ih =>
    simp only [List.dropWhile]
    split
    · rename_i hpa
      rcases List.mem_cons.mp hc with rfl | h
      · rw [hp] at hpa; cases hpa
      · exact ih h
    · exact hc

theorem mem_trimChars_of_not {c : Char} {cs : List Char}
    (hc : c ∈ cs) (hw : isWs c = false) : c ∈ trimChars cs := by
  unfold trimChars
  exact List.mem_reverse.mpr
    (mem_dropWhile_of_not isWs (List.mem_reverse.mpr (mem_dropWhile_of_not isWs hc hw)) hw)

theorem collapseWs_ne_nil {cs : List Char} (h : cs ≠ []) : collapseWs cs ≠ [] := by
  cases cs with
  | nil => exact absurd rfl h
  | cons c cs =>
    unfold collapseWs collapseWsAux
    split
    · simp
    · simp

theorem alnum_not_ws {c : Char} (h : isAsciiAlnum c = true) : isWs c = false := by
  by_contra hc
  simp only [Bool.not_eq_false, isWs, Bool.or_eq_true, decide_eq_true_eq] at hc
  rcases hc with ((rfl | rfl) | rfl) | rfl <;> simp [isAsciiAlnum] at h

theorem alnum_not_removed {c : Char} (h : isAsciiAlnum c = true) :
    removeSet.contains c = false := by
  by_contra hc
  simp only [Bool.not_eq_false] at hc
  have hmem : c ∈ removeSet := List.elem_iff.mp hc
  simp only [removeSet, List.mem_cons, List.not_mem_nil, or_false] at hmem
  rcases hmem with rfl | rfl | rfl | rfl | rfl | rfl | rfl | rfl | rfl | rfl | rfl | rfl <;>
    simp [isAsciiAlnum] at h

theorem toList_mk (cs : List Char) : (String.mk cs).toList = cs := rfl

/-- A string containing an ASCII alphanumeric character slugifies to a
non-empty result. -/
theorem toSlug_ne_empty {s : String} (lower : Bool)
    (h : s.toList.any isAsciiAlnum = true) : toSlug s lower ≠ "" := by
  obtain ⟨c, hc, hal⟩ := List.any_eq_true.mp h
  have hdash : c ≠ '-' := by
    rintro rfl
    simp [isAsciiAlnum] at hal
  have h1 : c ∈ s.toList.map fun c => if c = '-' then ' ' else c := by
    have := List.mem_map_of_mem (fun c => if c = '-' then ' ' else c) hc
    simpa [if_neg hdash] using this
  have h2 : c ∈ (s.toList.map fun c => if c = '-' then ' ' else c).filter
      fun c => !removeSet.contains c := by
    refine List.mem_filter.mpr ⟨h1, ?_⟩
    simp only [alnum_not_removed hal, Bool.not_false]
  have h3 : c ∈ ((s.toList.map fun c => if c = '-' then ' ' else c).filter
      fun c => !removeSet.contains c).filter fun c => isAsciiAlnum c || isWs c := by
    refine List.mem_filter.mpr ⟨h2, ?_⟩
    simp [hal]
  have h4 := mem_trimChars_of_not h3 (alnum_not_ws hal)
  have h5 := collapseWs_ne_nil (List.ne_nil_of_mem h4)
  intro hcon
  apply h5
  have htl : (toSlug s lower).toList = [] := by rw [hcon]; rfl
  rcases lower with _ | _
  · simpa [toSlug, toList_mk] using htl
  · simp only [toSlug, if_true, toList_mk] at htl
    exact List.map_eq_nil.mp htl

/-! ### Claim C6 -/

/-- C6, counterexample: the claim says the slugified result is never empty,
but a page whose title is `"..."` (non-blank, so no fallback triggers)
slugifies to the empty string — every character is in the removed
punctuation set. -/
theorem C6_counterexample :
    buildSlug
      { id := "x1",
        properties := [("Name", .obj [("type", .str "title"),
          ("title", .arr [.obj [("plain_text", .str "...")]])])],
        cover := .null, icon := .null, bodyConv := none }
      { fromKey := "title", fallback := "id", lower := some true } = .ok "" := rfl

/-- C6 (amended): `buildSlug` is a pure (hence deterministic) function of
page and rule; when the resolved base is falsy or blank and the rule's
fallback is `"id"`, the page identifier is slugified instead, and the
result is non-empty whenever the identifier contains an ASCII alphanumeric
character.  A non-blank base consisting only of removed punctuation can
still slugify to the empty string. -/
theorem C6_buildSlug_fallback (page : Page) (sc : SlugConf) (b : JVal)
    (hb : baseOf page sc = .ok b)
    (hblank : b.toBool = false ∨ jsTrim (jsToStr b) = "")
    (hfb : sc.fallback = "id")
    (hid : page.id.toList.any isAsciiAlnum = true) :
    buildSlug page sc = .ok (toSlug page.id (sc.lower != some false)) ∧
      toSlug page.id (sc.lower != some false) ≠ "" := by
  refine ⟨?_, toSlug_ne_empty _ hid⟩
  unfold buildSlug
  rw [hb, bindE, if_pos hblank, if_pos hfb]
  rfl

/-- Witness for C6 at a concrete page with a blank title and id "page-42". -/
theorem C6_buildSlug_fallback_witness :
    buildSlug ⟨"page-42", [], .null, .null, none⟩
      ⟨"title", "id", some true⟩ =
        .ok (toSlug "page-42" (((some true : Option Bool)) != some false)) ∧
      toSlug "page-42" (((some true : Option Bool)) != some false) ≠ "" :=
  C6_buildSlug_fallback _ _ .null rfl (Or.inl rfl) rfl (by decide)

/-! ### Content-addressed image cache (`downloadImage`, `saveNotionImage`) -/

/-- `url.split("?")[0]`. -/
def beforeQuery (url : String) : String :=
  String.mk (url.toList.takeWhile fun c => c ≠ '?')

def endsWithChars (l suffix : List Char) : Bool := suffix.isSuffixOf l

/-- `getImageExtension`: the recognised extension of the locator's path,
matched case-insensitively, else the default `"jpg"`. -/
def getImageExtension (url : String) : String :=
  let u := (beforeQuery url).toList.map lowerChar
  if endsWithChars u ".jpg".toList then "jpg"
  else if endsWithChars u ".jpeg".toList then "jpeg"
  else if endsWithChars u ".png".toList then "png"
  else if endsWithChars u ".gif".toList then "gif"
  else if endsWithChars u ".webp".toList then "webp"
  else if endsWithChars u ".svg".toList then "svg"
  else "jpg"

/-- Models the 8-character md5 content digest of `downloadImage`: a
deterministic function of the downloaded bytes (hash collisions are not
modelled). -/
def hashBytes (bs : List Nat) : String :=
  bs.foldl (fun acc b => acc ++ "x" ++ toString b) "h"

/-- `"/" + path.relative(path.join(cwd, "src"), destPath)`: modelled by
stripping a leading `src/` segment (the default images directory lives
under `src/`); a deterministic, injective path rewrite. -/
def mkRel (p : String) : String :=
  if "src/".toList.isPrefixOf p.toList then "/" ++ String.mk (p.toList.drop 4)
  else "/" ++ p

def alookup {α : Type} : List (String × α) → String → Option α
  | [], _ => none
  | kv :: rest, k => if kv.1 = k then some kv.2 else alookup rest k

/-- JS `Map.set` / object property write: update in place, else append. -/
def aset {α : Type} (l : List (String × α)) (k : String) (v : α) : List (String × α) :=
  if l.any fun kv => decide (kv.1 = k) then
    l.map fun kv => if kv.1 = k then (k, v) else kv
  else l ++ [(k, v)]

/-- The run-scoped image state: the URL-keyed `imageCache`, the files on
disk in image directories, and the log of network downloads performed. -/
structure ImgState where
  cache : List (String × String)
  disk : List String
  downloads : List String
deriving DecidableEq, Repr

/-- `saveNotionImage` from the source, over explicit state.  `net url =
none` models a failed download (non-200 status, stream or file-write
error, all rejected inside `downloadImage`); then the original locator is
returned unchanged and the cache is not updated.  On success the canonical
name is `{pageSlug}-{imageIndex}-{contentHash}.{ext}`; if that file already
exists the temp download is discarded (disk unchanged), else it is promoted.
The `Date.now()`-named temporary file never survives the call and is not
modelled on disk. -/
def saveNotionImage (net : String → Option (List Nat))
    (imageUrl pageSlug imageIndex imagesDir : String) (st : ImgState) :
    String × ImgState :=
  match alookup st.cache imageUrl with
  | some p => (p, st)
  | none =>
    match net imageUrl with
    | none => (imageUrl, { st with downloads := st.downloads ++ [imageUrl] })
    | some bytes =>
      let ext := getImageExtension imageUrl
      let contentHash := hashBytes bytes
      let filename := pageSlug ++ "-" ++ imageIndex ++ "-" ++ contentHash ++ "." ++ ext
      let finalPath := imagesDir ++ "/" ++ filename
      let rel := mkRel finalPath
      let disk2 := if finalPath ∈ st.disk then st.disk else st.disk ++ [finalPath]
      (rel,
        { cache := aset st.cache imageUrl rel, disk := disk2,
          downloads := st.downloads ++ [imageUrl] })

/-! ### Claim C4 -/

/-- The network of C4's failing input: two distinct locators serving the
same bytes. -/
def netC4 : String → Option (List Nat) := fun u =>
  if u = "http://img.host/a.png" ∨ u = "http://img.host/b.png" then some [7, 7] else none

/-- C4, the failing input evaluated: two byte-identical assets at distinct
locators, fetched for two different pages, yield two distinct local paths
and two network downloads — the code names files by
`{pageSlug}-{imageIndex}-{contentHash}` and caches by URL, so neither the
"same local path" part nor "at most one download" holds. -/
theorem C4_content_dedup_fails :
    netC4 "http://img.host/a.png" = netC4 "http://img.host/b.png" ∧
    "http://img.host/a.png" ≠ "http://img.host/b.png" ∧
    (saveNotionImage netC4 "http://img.host/b.png" "other-page" "0" "img"
        (saveNotionImage netC4 "http://img.host/a.png" "my-page" "0" "img"
          ⟨[], [], []⟩).2).1 ≠
      (saveNotionImage netC4 "http://img.host/a.png" "my-page" "0" "img" ⟨[], [], []⟩).1 ∧
    (saveNotionImage netC4 "http://img.host/b.png" "other-page" "0" "img"
        (saveNotionImage netC4 "http://img.host/a.png" "my-page" "0" "img"
          ⟨[], [], []⟩).2).2.downloads.length = 2 :=
  ⟨rfl, by decide, by decide, rfl⟩

/-! ### Body link rewriting (`pageBodyMarkdown`) -/

def subAt : List Char → List Char → Bool
  | [], _ => true
  | _ :: _, [] => false
  | p :: ps, h :: hs => p == h && subAt ps hs

def hasSub (pat : List Char) : List Char → Bool
  | [] => pat.isEmpty
  | hay@(_ :: hs) => subAt pat hay || hasSub pat hs

/-- JS `String.prototype.includes`. -/
def strIncludes (s pat : String) : Bool := hasSub pat.toList s.toList

/-- The remote-asset-host test of the image branch. -/
def isNotionAsset (url : String) : Bool :=
  strIncludes url "notion" || strIncludes url "secure.notion-static.com" ||
    strIncludes url "s3.us-west"

def hexDigit (c : Char) : Bool := ('0' ≤ c && c ≤ '9') || ('a' ≤ c && c ≤ 'f')

def take32Hex (cs : List Char) : Option String :=
  let h := cs.take 32
  if h.length = 32 && h.all hexDigit then some (String.mk h) else none

def segChar (c : Char) : Bool := isAsciiAlnum c || c = '-'

def matchAfterHost (cs : List Char) : Option String :=
  match take32Hex cs with
  | some s => some s
  | none =>
    let seg := cs.takeWhile segChar
    if seg.isEmpty then none
    else
      match cs.drop seg.length with
      | '/' :: rest => take32Hex rest
      | _ => none

def stripPre (pre : String) (cs : List Char) : Option (List Char) :=
  if pre.toList.isPrefixOf cs then some (cs.drop pre.toList.length) else none

def tryHost (cs : List Char) : Option String :=
  match
    (match stripPre "https://" cs with
     | some r => some r
     | none => stripPre "http://" cs) with
  | none => none
  | some r =>
    let r2 := match stripPre "www." r with | some x => x | none => r
    match stripPre "notion.so/" r2 with
    | some rest => matchAfterHost rest
    | none => none

def notionUrlIdChars : List Char → Option String
  | [] => none
  | c :: rest =>
    match tryHost (c :: rest) with
    | some s => some s
    | none => notionUrlIdChars rest

/-- The internal-link regex
`https?:\/\/(?:www\.)?notion\.so\/(?:[a-zA-Z0-9-]+\/)?([a-f0-9]{32})` as a
leftmost-match search: at each start, the protocol, optional `www.`, host,
an optional path segment ending in `/`, and a 32-hex capture. -/
def notionUrlId (url : String) : Option String := notionUrlIdChars url.toList

/-- The scan-and-replace loop of `pageBodyMarkdown`, at the granularity of
the link occurrences found by the regex.  The counter is
`replacements.length`: it advances exactly when a replacement is pushed,
and is the `imageIndex` passed for image downloads.  Image links to a
remote-asset host are replaced by the cache's local path (or the original
locator on download failure); non-image links whose target parses as a
known page identifier are replaced by the mapped permalink; everything
else is untouched. -/
def rewriteBody (net : String → Option (List Nat)) (pageMap : List (String × String))
    (slug imagesDir : String) :
    List Tok → Nat → ImgState → List Tok × Nat × ImgState
  | [], k, st => ([], k, st)
  | .text s :: ts, k, st =>
    let r := rewriteBody net pageMap slug imagesDir ts k st
    (.text s :: r.1, r.2)
  | .link true alt url :: ts, k, st =>
    if isNotionAsset url then
      let pr := saveNotionImage net url slug (toString k) imagesDir st
      let r := rewriteBody net pageMap slug imagesDir ts (k + 1) pr.2
      (.link true alt pr.1 :: r.1, r.2)
    else
      let r := rewriteBody net pageMap slug imagesDir ts k st
      (.link true alt url :: r.1, r.2)
  | .link false alt url :: ts, k, st =>
    match notionUrlId url with
    | some nid =>
      match alookup pageMap nid with
      | some perm =>
        let r := rewriteBody net pageMap slug imagesDir ts (k + 1) st
        (.link false alt perm :: r.1, r.2)
      | none =>
        let r := rewriteBody net pageMap slug imagesDir ts k st
        (.link false alt url :: r.1, r.2)
    | none =>
      let r := rewriteBody net pageMap slug imagesDir ts k st
      (.link false alt url :: r.1, r.2)

/-- `pageBodyMarkdown` from the source: a conversion failure is caught and
yields the empty body; otherwise the link occurrences are rewritten (the
reverse-order string replacement is faithful at token granularity). -/
def pageBody (net : String → Option (List Nat)) (pageMap : List (String × String))
    (slug imagesDir : String) (conv : Option (List Tok)) (st : ImgState) :
    List Tok × ImgState :=
  match conv with
  | none => ([], st)
  | some toks =>
    let r := rewriteBody net pageMap slug imagesDir toks 0 st
    (r.1, r.2.2)

/-! ### Claim C8 -/

/-- C8: a failed asset download (non-200, stream or file error — all
rejections of `downloadImage`) is caught: `saveNotionImage` returns the
original remote locator unchanged, touching neither cache nor disk, and
the page body is still produced with that locator in place, so the run
continues. -/
theorem C8_asset_error_recovery :
    (∀ (net : String → Option (List Nat)) (url slug idx dir : String) (st : ImgState),
      alookup st.cache url = none → net url = none →
      saveNotionImage net url slug idx dir st =
        (url, { st with downloads := st.downloads ++ [url] })) ∧
    (∀ (net : String → Option (List Nat)) (pageMap : List (String × String))
        (slug dir alt url : String) (st : ImgState),
      alookup st.cache url = none → net url = none → isNotionAsset url = true →
      (pageBody net pageMap slug dir (some [.link true alt url]) st).1 =
        [.link true alt url]) := by
  constructor
  · intro net url slug idx dir st hc hn
    unfold saveNotionImage
    rw [hc, hn]
  · intro net pageMap slug dir alt url st hc hn ha
    simp only [pageBody, rewriteBody, if_pos ha, saveNotionImage, hc, hn]

/-- Witness for C8 at a concrete failing locator. -/
theorem C8_asset_error_recovery_witness :
    (saveNotionImage (fun _ => none) "https://notion.so/img.png" "p" "0" "img"
        ⟨[], [], []⟩ =
      ("https://notion.so/img.png",
        { cache := [], disk := [], downloads := ["https://notion.so/img.png"] })) ∧
    (pageBody (fun _ => none) [] "p" "img"
        (some [.link true "pic" "https://notion.so/img.png"]) ⟨[], [], []⟩).1 =
      [.link true "pic" "https://notion.so/img.png"] :=
  ⟨C8_asset_error_recovery.1 _ _ _ _ _ _ rfl rfl,
   C8_asset_error_recovery.2 _ _ _ _ _ _ _ rfl rfl (by decide)⟩

/-! ### Front matter and `writePage` -/

mutual
/-- Models `js-yaml`'s `dump` of one value: a deterministic serialization
(quoting and flow-style details of the library are abstracted; the claims
rely on determinism and on the ordered key set). -/
def yamlVal : JVal → String
  | .null => "null"
  | .undef => ""
  | .str s => s
  | .num n => toString n
  | .bool b => if b then "true" else "false"
  | .arr xs => "[" ++ yamlValL xs ++ "]"
  | .obj _ => "{}"

def yamlValL : List JVal → String
  | [] => ""
  | [x] => yamlVal x
  | x :: xs => yamlVal x ++ ", " ++ yamlValL xs
end

def yamlDump (fs : List (String × JVal)) : String :=
  fs.foldl (fun acc kv => acc ++ kv.1 ++ ": " ++ yamlVal kv.2 ++ "\n") ""

/-- `toFrontMatterYaml` from the source. -/
def toFrontMatterYaml (fs : List (String × JVal)) : String :=
  "---\n" ++ yamlDump fs ++ "---\n"

/-- The omission test of `writePage`'s property loop:
`val !== null && val !== undefined && val !== ""` negated. -/
def omittedVal : JVal → Bool
  | .null => true
  | .undef => true
  | .str s => s = ""
  | _ => false

/-- The property loop of `writePage`: excluded names are skipped (checked
against the untrimmed name), every other property is normalized and, unless
the value is null/undefined/empty-string, written under the trimmed name. -/
def propsFold (exclude : List String) :
    List (String × JVal) → List (String × JVal) → Except Unit (List (String × JVal))
  | [], acc => .ok acc
  | (name, prop) :: rest, acc =>
    if exclude.contains name then propsFold exclude rest acc
    else do
      let v ← extractPropValue prop
      propsFold exclude rest (if omittedVal v then acc else aset acc (jsTrim name) v)

/-- One resolved source configuration (`detectDbConfig`'s result). -/
structure DbCfg where
  dir : String
  imagesDir : String
  basePath : String
  layout : String
  excludeProps : List String
  slugConf : SlugConf
  permalinkTpl : String
  fmExtras : List (String × JVal)
  cleanBeforeSync : Bool

/-- The front-matter object built by `writePage` before cover/icon
handling: layout, title (first title text or the slug), permalink,
notionPageId, the static extras (object spread: in-place overwrite), then
the property loop. -/
def pageFrontCore (cfg : DbCfg) (page : Page) (slug permalink : String) :
    Except Unit (List (String × JVal)) := do
  let t ← getFirstTitleText page
  let front0 : List (String × JVal) :=
    [("layout", .str cfg.layout), ("title", jsOr t (.str slug)),
     ("permalink", .str permalink), ("notionPageId", .str page.id)]
  let front1 := cfg.fmExtras.foldl (fun fs kv => aset fs kv.1 kv.2) front0
  propsFold cfg.excludeProps page.properties front1

/-- A truthy string URL (covers and icons carry string URLs; a truthy
non-string would be passed to the downloader and fail there — we model it
as no reference). -/
def strTruthy : JVal → Option String
  | .str s => if s = "" then none else some s
  | _ => none

/-- `page.cover.type === "external" ? page.cover.external?.url :
page.cover.file?.url`, guarded by `if (page.cover)`. -/
def coverUrlOf (cover : JVal) : Option String :=
  if cover.toBool then
    match fieldOf cover "type" with
    | .str "external" => strTruthy (optChain (fieldOf cover "external") "url")
    | _ => strTruthy (optChain (fieldOf cover "file") "url")
  else none

/-- The icon branch: only `external` and `file` icons are images. -/
def iconUrlOf (icon : JVal) : Option String :=
  if icon.toBool then
    match fieldOf icon "type" with
    | .str "external" => strTruthy (optChain (fieldOf icon "external") "url")
    | .str "file" => strTruthy (optChain (fieldOf icon "file") "url")
    | _ => none
  else none

/-- `writePage` from the source: slug, permalink, front matter (with
cover/icon resolved through the asset cache), then the rewritten body.
Returns the output path `{dir}/{slug}.md`, the front-matter text and the
body; the filesystem write is the caller's transition. -/
def writePageM (net : String → Option (List Nat)) (cfg : DbCfg)
    (pageMap : List (String × String)) (page : Page) (st : ImgState) :
    Except Unit ((String × String × List Tok) × ImgState) := do
  let slug ← buildSlug page cfg.slugConf
  let permalink := renderPermalink cfg.permalinkTpl slug
  let front ← pageFrontCore cfg page slug permalink
  let fc :=
    match coverUrlOf page.cover with
    | some u =>
      let pr := saveNotionImage net u slug "cover" cfg.imagesDir st
      (aset front "coverImage" (.str pr.1), pr.2)
    | none => (front, st)
  let fi :=
    match iconUrlOf page.icon with
    | some u =>
      let pr := saveNotionImage net u slug "icon" cfg.imagesDir fc.2
      (aset fc.1 "iconImage" (.str pr.1), pr.2)
    | none => fc
  let fm := toFrontMatterYaml fi.1
  let r := pageBody net pageMap slug cfg.imagesDir page.bodyConv fi.2
  .ok ((cfg.dir ++ "/" ++ slug ++ ".md", fm, r.1), r.2)

/-! ### Configuration detection and database ids -/

def strD (o : Option String) : String := o.getD ""

/-- One raw source entry of the configuration's `databases` array
(truthiness of a missing or empty string field is uniform, so absent and
empty are both `none`/`""`). -/
structure DbConf where
  databaseId : Option String
  srcDir : Option String
  srcDirImages : Option String
  basePath : Option String
  layout : Option String
  excludeProperties : List String
  slug : Option SlugConf
  permalink : Option String
  frontMatter : List (String × JVal)
  cleanBeforeSync : Option Bool

/-- `detectDbConfig` from the source (`path.join(process.cwd(), d)` is
modelled with the working directory as the path root, and the error text
without quote characters). -/
def detectDbConfig (c : DbConf) : Except String DbCfg :=
  if strD c.srcDir = "" then .error "Missing required field srcDir in database config"
  else if strD c.basePath = "" then
    .error "Missing required field basePath in database config"
  else if strD c.layout = "" then .error "Missing required field layout in database config"
  else
    .ok
      { dir := strD c.srcDir,
        imagesDir := if strD c.srcDirImages = "" then "src/images/notion"
                     else strD c.srcDirImages,
        basePath := strD c.basePath,
        layout := strD c.layout,
        excludeProps := c.excludeProperties,
        slugConf := c.slug.getD ⟨"title", "id", some true⟩,
        permalinkTpl := if strD c.permalink = "" then strD c.basePath ++ "/{slug}/"
                        else strD c.permalink,
        fmExtras := c.frontMatter,
        cleanBeforeSync := c.cleanBeforeSync != some false }

def isHex32 (s : String) : Bool := s.toList.length = 32 && s.toList.all hexDigit

def firstHex32 : List Char → Option String
  | [] => none
  | c :: rest =>
    match take32Hex (c :: rest) with
    | some s => some s
    | none => firstHex32 rest

/-- `extractDatabaseId` from the source: a bare 32-hex id is returned
unchanged, otherwise the leftmost 32-hex run of the URL, otherwise a
thrown error. -/
def extractDatabaseId (idOrUrl : String) : Except String String :=
  if isHex32 idOrUrl then .ok idOrUrl
  else
    match firstHex32 idOrUrl.toList with
    | some m => .ok m
    | none => .error ("Invalid Notion database ID or URL: " ++ idOrUrl)

/-! ### The two-pass orchestrator (`exportNotionToSSG`) -/

/-- The fixed remote snapshot for one run: database titles, page listings
(by extracted id) and the byte content served for asset URLs (`none` is a
failed download). -/
structure World where
  dbTitle : String → String
  dbPages : String → List Page
  net : String → Option (List Nat)

/-- Observable events of a run: the remote enumeration calls of pass 1 and
the markdown file writes of pass 2 (with the bytes written).  Image
downloads are recorded in `ImgState.downloads`. -/
inductive Ev where
  | metaFetch (dbId : String)
  | pagesFetch (dbId : String)
  | writeFile (path : String) (fm : String) (body : List Tok)
deriving DecidableEq, Repr

/-- One per-source result of `exportNotionToSSG`. -/
structure SyncResult where
  databaseId : String
  databaseTitle : String
  pagesExported : Nat
  filesWritten : List String
  filesDeleted : List String
deriving DecidableEq, Repr

abbrev PageMap := List (String × String)

/-- What pass 1 stores per source in `allDbPages`: the pages, the resolved
configuration and the database title from the metadata fetch (`""` models
an absent title, which falls back to the id). -/
structure SrcData where
  pages : List Page
  cfg : DbCfg
  metaTitle : String

abbrev DbTable := List (String × SrcData)

/-- The markdown output tree: full path to (front-matter text, body).
Pre-existing files from earlier runs carry arbitrary content. -/
abbrev MdDisk := List (String × String × List Tok)

def stripDashes (s : String) : String := String.mk (s.toList.filter fun c => c ≠ '-')

/-- Pass 1's inner loop: compute each page's slug and permalink and store
the permalink under the dash-stripped page id (`page.id.replace` with the
global dash regex). -/
def insertPages (sc : SlugConf) (tpl : String) : List Page → PageMap → Except Unit PageMap
  | [], pm => .ok pm
  | p :: ps, pm => do
    let s ← buildSlug p sc
    insertPages sc tpl ps (aset pm (stripDashes p.id) (renderPermalink tpl s))

/-- Pass 1 of `exportNotionToSSG`: per source, in order — the `databaseId`
presence check, `extractDatabaseId`, the metadata fetch, `detectDbConfig`,
the page listing, and the `pageMap`/`allDbPages` inserts.  A throw aborts
the run with the events so far. -/
def pass1 (w : World) : List DbConf → PageMap → DbTable → List Ev →
    (Except String (PageMap × DbTable)) × List Ev
  | [], pm, tbl, tr => (.ok (pm, tbl), tr)
  | c :: rest, pm, tbl, tr =>
    if strD c.databaseId = "" then
      (.error "Each database config must have a databaseId field", tr)
    else
      match extractDatabaseId (strD c.databaseId) with
      | .error e => (.error e, tr)
      | .ok dbId =>
        let tr1 := tr ++ [.metaFetch dbId]
        match detectDbConfig c with
        | .error e => (.error e, tr1)
        | .ok cfg =>
          let pages := w.dbPages dbId
          let tr2 := tr1 ++ [.pagesFetch dbId]
          match insertPages cfg.slugConf cfg.permalinkTpl pages pm with
          | .error _ => (.error "TypeError", tr2)
          | .ok pm2 =>
            pass1 w rest pm2 (aset tbl dbId ⟨pages, cfg, w.dbTitle dbId⟩) tr2

/-- The write loop of pass 2 for one source: `writePage` each page, record
the path in the `writtenFiles` set (insertion-ordered, deduplicated) and
the write event. -/
def writeAll (net : String → Option (List Nat)) (pm : PageMap) (cfg : DbCfg) :
    List Page → MdDisk → ImgState → List String → List Ev →
    (Except String Unit) × MdDisk × ImgState × List String × List Ev
  | [], md, st, written, tr => (.ok (), md, st, written, tr)
  | p :: ps, md, st, written, tr =>
    match writePageM net cfg pm p st with
    | .error _ => (.error "TypeError", md, st, written, tr)
    | .ok (out, st2) =>
      writeAll net pm cfg ps (aset md out.1 out.2) st2
        (if written.contains out.1 then written else written ++ [out.1])
        (tr ++ [.writeFile out.1 out.2.1 out.2.2])

/-- `p` is a direct child of `dir` (`readdirSync` is not recursive and
`cleanDirectory` only unlinks plain files). -/
def inDir (dir p : String) : Bool :=
  (dir ++ "/").toList.isPrefixOf p.toList &&
    (p.toList.drop (dir ++ "/").toList.length).all fun c => c ≠ '/'

def endsMd (p : String) : Bool := endsWithChars p.toList ".md".toList

/-- `cleanDirectory(dir, /\.md$/)` over the markdown tree (with `mdOnly`
false, the pattern-less call used for image directories). -/
def cleanMd (dir : String) (mdOnly : Bool) (md : MdDisk) : List String × MdDisk :=
  ((md.filter fun e => inDir dir e.1 && (!mdOnly || endsMd e.1)).map (fun e => e.1),
   md.filter fun e => !(inDir dir e.1 && (!mdOnly || endsMd e.1)))

/-- `cleanDirectory(imagesDir)` over the image disk. -/
def cleanDisk (dir : String) (disk : List String) : List String × List String :=
  (disk.filter fun p => inDir dir p, disk.filter fun p => !(inDir dir p))

/-- The clean-before-sync step of pass 2: delete the markdown files of the
source directory and, when `srcDirImages` is configured, all files of the
image directory; returns the cleaned tree, state, and deleted paths. -/
def cleanStep (c : DbConf) (cfg : DbCfg) (md : MdDisk) (st : ImgState) :
    MdDisk × ImgState × List String :=
  if cfg.cleanBeforeSync then
    let r1 := cleanMd cfg.dir true md
    let r2 :=
      if strD c.srcDirImages ≠ "" then cleanDisk cfg.imagesDir st.disk
      else ([], st.disk)
    (r1.2, { st with disk := r2.2 }, r1.1 ++ r2.1)
  else (md, st, [])

/-- Pass 2 of `exportNotionToSSG`: per source, look the stored data up by
the raw configured `databaseId` (a lookup miss is the JS `TypeError` from
destructuring `undefined`), optionally clean the markdown directory (and
the image directory when `srcDirImages` is set), write every page, and
record the per-source result. -/
def pass2 (w : World) (pm : PageMap) (tbl : DbTable) :
    List DbConf → MdDisk → ImgState → List SyncResult → List Ev →
    (Except String (List SyncResult)) × MdDisk × ImgState × List Ev
  | [], md, st, acc, tr => (.ok acc, md, st, tr)
  | c :: rest, md, st, acc, tr =>
    match alookup tbl (strD c.databaseId) with
    | none => (.error "TypeError: cannot destructure pages", md, st, tr)
    | some d =>
      let cl := cleanStep c d.cfg md st
      match writeAll w.net pm d.cfg d.pages cl.1 cl.2.1 [] tr with
      | (.error e, md2, st2, _, tr2) => (.error e, md2, st2, tr2)
      | (.ok _, md2, st2, written, tr2) =>
        let title := if d.metaTitle = "" then strD c.databaseId else d.metaTitle
        pass2 w pm tbl rest md2 st2
          (acc ++ [⟨strD c.databaseId, title, d.pages.length, written, cl.2.2⟩]) tr2

/-- The outcome of one `exportNotionToSSG` run: the per-source results (or
the thrown error), the final markdown tree and image state, and the event
trace. -/
structure RunOut where
  res : Except String (List SyncResult)
  md : MdDisk
  img : ImgState
  trace : List Ev

/-- `exportNotionToSSG` from the source (the token check and config-file
loading are the caller's; `cfgs` is the validated `databases` array): pass
1 enumerates every source into the id-to-permalink map, then pass 2 writes
all sources.  The image cache and download log start empty each run;
the markdown tree and image disk carry over from previous runs. -/
def exportModel (w : World) (cfgs : List DbConf) (md : MdDisk) (imgDisk : List String) :
    RunOut :=
  match pass1 w cfgs [] [] [] with
  | (.error e, tr) => ⟨.error e, md, ⟨[], imgDisk, []⟩, tr⟩
  | (.ok (pm, tbl), tr) =>
    match pass2 w pm tbl cfgs md ⟨[], imgDisk, []⟩ [] tr with
    | (res, md2, st2, tr2) => ⟨res, md2, st2, tr2⟩

/-! ### Claim C7 -/

/-- A trivial world for counterexamples. -/
def w0 : World :=
  { dbTitle := fun _ => "", dbPages := fun _ => [], net := fun _ => none }

/-- A source with a database id but no `srcDir`. -/
def c7bad : DbConf :=
  { databaseId := some "aaaaaaaaaaaaaaaaaaaaaaaaaaaaaaaa", srcDir := none,
    srcDirImages := none, basePath := some "/x", layout := some "l",
    excludeProperties := [], slug := none, permalink := none, frontMatter := [],
    cleanBeforeSync := none }

/-- C7, counterexample: the claim says a missing required field makes
`exportNotionToSSG` throw before any remote call; but for a source missing
`srcDir` the run's trace contains that source's metadata fetch — the code
calls `fetchDatabaseMeta` before `detectDbConfig`. -/
theorem C7_counterexample :
    (exportModel w0 [c7bad] [] []).res =
      .error "Missing required field srcDir in database config" ∧
    (exportModel w0 [c7bad] [] []).trace =
      [.metaFetch "aaaaaaaaaaaaaaaaaaaaaaaaaaaaaaaa"] := ⟨rfl, rfl⟩

/-- C7 (amended): a missing `databaseId` throws before any remote call,
with no events, no downloads and the file tree untouched; a missing
`srcDir`/`basePath`/`layout` throws after that source's metadata fetch but
before its page listing, any download, any write and any delete — so
configuration errors still mean no partial write of any source, but not
"no remote call". -/
theorem C7_config_errors (w : World) (c : DbConf) (md : MdDisk) (img : List String) :
    (strD c.databaseId = "" →
      exportModel w [c] md img =
        ⟨.error "Each database config must have a databaseId field", md,
          ⟨[], img, []⟩, []⟩) ∧
    (∀ e msg, extractDatabaseId (strD c.databaseId) = .ok e →
      detectDbConfig c = .error msg →
      exportModel w [c] md img = ⟨.error msg, md, ⟨[], img, []⟩, [.metaFetch e]⟩) := by
  constructor
  · intro h
    have hp : pass1 w [c] [] [] [] =
        (.error "Each database config must have a databaseId field", []) := by
      unfold pass1
      rw [if_pos h]
    unfold exportModel
    rw [hp]
  · intro e msg he hd
    have hne : ¬ strD c.databaseId = "" := by
      intro h0
      rw [h0] at he
      simp [extractDatabaseId, isHex32, firstHex32] at he
    have hp : pass1 w [c] [] [] [] = (.error msg, [.metaFetch e]) := by
      unfold pass1
      rw [if_neg hne, he, hd]
      simp
    unfold exportModel
    rw [hp]

/-- Witness for C7: a source with no id at all, and `c7bad` which has an
id but no `srcDir`. -/
theorem C7_config_errors_witness :
    (exportModel w0
        [{ databaseId := none, srcDir := none, srcDirImages := none, basePath := none,
           layout := none, excludeProperties := [], slug := none, permalink := none,
           frontMatter := [], cleanBeforeSync := none }] [] [] =
      ⟨.error "Each database config must have a databaseId field", [], ⟨[], [], []⟩, []⟩) ∧
    (exportModel w0 [c7bad] [] [] =
      ⟨.error "Missing required field srcDir in database config", [], ⟨[], [], []⟩,
        [.metaFetch "aaaaaaaaaaaaaaaaaaaaaaaaaaaaaaaa"]⟩) :=
  ⟨(C7_config_errors w0 _ [] []).1 rfl,
   (C7_config_errors w0 c7bad [] []).2 "aaaaaaaaaaaaaaaaaaaaaaaaaaaaaaaa"
     "Missing required field srcDir in database config" rfl rfl⟩

/-! ### Association-list and trace lemmas -/

theorem alookup_update_self {α : Type} (l : List (String × α)) (k : String) (v : α)
    (h : (l.any fun kv => decide (kv.1 = k)) = true) :
    alookup (l.map fun kv => if kv.1 = k then (k, v) else kv) k = some v := by
  induction l with
  | nil => simp at h
  | cons kv rest ih =>
    by_cases hk : kv.1 = k
    · rw [List.map_cons, if_pos hk]
      simp [alookup]
    · rw [List.map_cons, if_neg hk]
      simp only [alookup, if_neg hk]
      apply ih
      simp only [List.any_cons, Bool.or_eq_true, decide_eq_true_eq] at h
      rcases h with h | h
      · exact absurd h hk
      · simpa using h

theorem alookup_append_self {α : Type} (l : List (String × α)) (k : String) (v : α)
    (h : (l.any fun kv => decide (kv.1 = k)) = false) :
    alookup (l ++ [(k, v)]) k = some v := by
  induction l with
  | nil => simp [alookup]
  | cons kv rest ih =>
    rw [List.any_cons] at h
    have h1 : decide (kv.1 = k) = false := by
      cases hd : decide (kv.1 = k)
      · rfl
      · rw [hd] at h; simp at h
    have h2 : (rest.any fun kv => decide (kv.1 = k)) = false := by
      cases hd : rest.any fun kv => decide (kv.1 = k)
      · rfl
      · rw [hd] at h; simp at h
    simp only [List.cons_append, alookup]
    rw [if_neg (by simpa using h1)]
    exact ih h2

theorem alookup_update_ne {α : Type} (l : List (String × α)) (k k' : String) (v : α)
    (h : k' ≠ k) :
    alookup (l.map fun kv => if kv.1 = k then (k, v) else kv) k' = alookup l k' := by
  induction l with
  | nil => rfl
  | cons kv rest ih =>
    by_cases hk : kv.1 = k
    · rw [List.map_cons, if_pos hk]
      simp only [alookup, if_neg (Ne.symm h)]
      rw [if_neg (show ¬ kv.1 = k' by rw [hk]; exact fun hh => h hh.symm)]
      exact ih
    · rw [List.map_cons, if_neg hk]
      simp only [alookup]
      split
      · rfl
      · exact ih

theorem alookup_append_ne {α : Type} (l : List (String × α)) (k k' : String) (v : α)
    (h : k' ≠ k) : alookup (l ++ [(k, v)]) k' = alookup l k' := by
  induction l with
  | nil =>
    simp only [List.nil_append, alookup]
    rw [if_neg (fun hh : k = k' => h hh.symm)]
  | cons kv rest ih =>
    simp only [List.cons_append, alookup]
    split
    · rfl
    · exact ih

theorem alookup_aset_self {α : Type} (l : List (String × α)) (k : String) (v : α) :
    alookup (aset l k v) k = some v := by
  unfold aset
  split
  · exact alookup_update_self l k v (by assumption)
  · rename_i h2
    refine alookup_append_self l k v ?_
    cases hb : (l.any fun kv => decide (kv.1 = k))
    · rfl
    · exact absurd hb h2

theorem alookup_aset_ne {α : Type} (l : List (String × α)) (k k' : String) (v : α)
    (h : k' ≠ k) : alookup (aset l k v) k' = alookup l k' := by
  unfold aset
  split
  · exact alookup_update_ne l k k' v h
  · exact alookup_append_ne l k k' v h

def isEnumEv : Ev → Bool
  | .metaFetch _ => true
  | .pagesFetch _ => true
  | .writeFile _ _ _ => false

def isWriteEv : Ev → Bool
  | .writeFile _ _ _ => true
  | _ => false

/-- Membership in a two-element list. -/
theorem mem_pair {α : Type} {x a b : α} (h : x ∈ [a, b]) : x = a ∨ x = b := by
  simpa using h

/-- Pass 1 only appends enumeration events. -/
theorem pass1_trace_shape (w : World) (cfgs : List DbConf) (pm : PageMap)
    (tbl : DbTable) (tr : List Ev) :
    ∃ suffix, (pass1 w cfgs pm tbl tr).2 = tr ++ suffix ∧
      ∀ x ∈ suffix, isEnumEv x = true := by
  induction cfgs generalizing pm tbl tr with
  | nil => exact ⟨[], by simp [pass1], by simp⟩
  | cons c rest ih =>
    unfold pass1
    split
    · exact ⟨[], by simp, by simp⟩
    · split
      · exact ⟨[], by simp, by simp⟩
      · rename_i dbId heq1
        split
        · refine ⟨[.metaFetch dbId], by simp, ?_⟩
          intro x hx
          simp only [List.mem_singleton] at hx
          subst hx
          rfl
        · rename_i cfg heq2
          simp only
          split
          · refine ⟨[.metaFetch dbId, .pagesFetch dbId], by simp, ?_⟩
            intro x hx
            rcases mem_pair hx with rfl | rfl <;> rfl
          · rename_i pm2 hins
            obtain ⟨sfx, hs, he⟩ := ih pm2
              (aset tbl dbId ⟨w.dbPages dbId, cfg, w.dbTitle dbId⟩)
              (tr ++ [Ev.metaFetch dbId] ++ [Ev.pagesFetch dbId])
            refine ⟨[Ev.metaFetch dbId, Ev.pagesFetch dbId] ++ sfx, ?_, ?_⟩
            · rw [hs]
              simp
            · intro x hx
              rcases List.mem_append.mp hx with hx | hx
              · rcases mem_pair hx with rfl | rfl <;> rfl
              · exact he x hx

/-- The write loop only appends write events. -/
theorem writeAll_trace_shape (net : String → Option (List Nat)) (pm : PageMap)
    (cfg : DbCfg) (ps : List Page) (md : MdDisk) (st : ImgState)
    (written : List String) (tr : List Ev) :
    ∃ suffix, (writeAll net pm cfg ps md st written tr).2.2.2.2 = tr ++ suffix ∧
      ∀ x ∈ suffix, isWriteEv x = true := by
  induction ps generalizing md st written tr with
  | nil => exact ⟨[], by simp [writeAll], by simp⟩
  | cons p ps ih =>
    unfold writeAll
    split
    · exact ⟨[], by simp, by simp⟩
    · rename_i out st2 heq
      obtain ⟨sfx, hs, hw⟩ := ih (aset md out.1 out.2) st2
        (if written.contains out.1 then written else written ++ [out.1])
        (tr ++ [Ev.writeFile out.1 out.2.1 out.2.2])
      refine ⟨[Ev.writeFile out.1 out.2.1 out.2.2] ++ sfx, ?_, ?_⟩
      · rw [hs]
        simp
      · intro x hx
        rcases List.mem_append.mp hx with hx | hx
        · simp only [List.mem_singleton] at hx
          subst hx
          rfl
        · exact hw x hx

/-- Pass 2 only appends write events. -/
theorem pass2_trace_shape (w : World) (pm : PageMap) (tbl : DbTable)
    (cfgs : List DbConf) (md : MdDisk) (st : ImgState) (acc : List SyncResult)
    (tr : List Ev) :
    ∃ suffix, (pass2 w pm tbl cfgs md st acc tr).2.2.2 = tr ++ suffix ∧
      ∀ x ∈ suffix, isWriteEv x = true := by
  induction cfgs generalizing md st acc tr with
  | nil => exact ⟨[], by simp [pass2], by simp⟩
  | cons c rest ih =>
    unfold pass2
    split
    · exact ⟨[], by simp, by simp⟩
    · rename_i d hd
      simp only
      obtain ⟨s1, hs1, hw1⟩ := writeAll_trace_shape w.net pm d.cfg d.pages
        (cleanStep c d.cfg md st).1 (cleanStep c d.cfg md st).2.1 [] tr
      split
      · rename_i e md2 st2 wr tr2 heq
        refine ⟨s1, ?_, hw1⟩
        have h2 : tr2 = tr ++ s1 := by
          rw [← hs1, heq]
        simpa using h2
      · rename_i u md2 st2 wr tr2 heq
        have h2 : tr2 = tr ++ s1 := by
          rw [← hs1, heq]
        obtain ⟨s2, hs2, hw2⟩ := ih md2 st2
          (acc ++ [⟨strD c.databaseId,
            if d.metaTitle = "" then strD c.databaseId else d.metaTitle,
            d.pages.length, wr, (cleanStep c d.cfg md st).2.2⟩]) tr2
        refine ⟨s1 ++ s2, ?_, ?_⟩
        · rw [hs2, h2, List.append_assoc]
        · intro x hx
          rcases List.mem_append.mp hx with hx | hx
          · exact hw1 x hx
          · exact hw2 x hx

/-! ### Claim C9: pass-2 lookup by raw id -/

theorem take32Hex_hex {cs : List Char} {m : String} (h : take32Hex cs = some m) :
    isHex32 m = true := by
  unfold take32Hex at h
  simp only at h
  split at h
  · rename_i hcond
    cases h
    unfold isHex32
    rw [toList_mk]
    exact hcond
  · cases h

theorem firstHex32_hex {cs : List Char} {m : String} (h : firstHex32 cs = some m) :
    isHex32 m = true := by
  induction cs with
  | nil => cases h
  | cons c rest ih =>
    unfold firstHex32 at h
    split at h
    · rename_i s hs
      cases h
      exact take32Hex_hex hs
    · exact ih h

theorem extract_hex {s t : String} (h : extractDatabaseId s = .ok t) :
    isHex32 t = true := by
  unfold extractDatabaseId at h
  split at h
  · cases h
    assumption
  · split at h
    · rename_i m hm
      cases h
      exact firstHex32_hex hm
    · cases h

theorem extract_of_hex {s : String} (h : isHex32 s = true) :
    extractDatabaseId s = .ok s := by
  unfold extractDatabaseId
  rw [if_pos h]

/-- Pass 1 inserts only extracted (hence 32-hex) keys into `allDbPages`. -/
theorem pass1_tbl_hex (w : World) :
    ∀ (cfgs : List DbConf) (pm : PageMap) (tbl : DbTable) (tr : List Ev)
      (pm2 : PageMap) (tbl2 : DbTable) (tr2 : List Ev),
      pass1 w cfgs pm tbl tr = (.ok (pm2, tbl2), tr2) →
      (∀ k d, alookup tbl k = some d → isHex32 k = true) →
      (∀ k d, alookup tbl2 k = some d → isHex32 k = true) := by
  intro cfgs
  induction cfgs with
  | nil =>
    intro pm tbl tr pm2 tbl2 tr2 hp hinv
    unfold pass1 at hp
    cases hp
    exact hinv
  | cons c rest ih =>
    intro pm tbl tr pm2 tbl2 tr2 hp hinv
    unfold pass1 at hp
    by_cases h0 : strD c.databaseId = ""
    · rw [if_pos h0] at hp
      simp at hp
    · rw [if_neg h0] at hp
      cases hex : extractDatabaseId (strD c.databaseId) with
      | error e2 => rw [hex] at hp; simp at hp
      | ok dbId =>
        rw [hex] at hp
        simp only at hp
        cases hdet : detectDbConfig c with
        | error m => rw [hdet] at hp; simp at hp
        | ok cfg =>
          rw [hdet] at hp
          simp only at hp
          cases hins : insertPages cfg.slugConf cfg.permalinkTpl (w.dbPages dbId) pm with
          | error u => rw [hins] at hp; simp at hp
          | ok pmB =>
            rw [hins] at hp
            simp only at hp
            refine ih pmB _ _ pm2 tbl2 tr2 hp ?_
            intro k d hk
            by_cases hkd : k = dbId
            · subst hkd
              exact extract_hex hex
            · rw [alookup_aset_ne _ _ _ _ hkd] at hk
              exact hinv k d hk

/-- If pass 2 returns results, every source's raw id was found in the
table. -/
theorem pass2_ok_lookup (w : World) (pm : PageMap) (tbl : DbTable) :
    ∀ (cfgs : List DbConf) (md : MdDisk) (st : ImgState) (acc : List SyncResult)
      (tr : List Ev) (rs : List SyncResult),
      (pass2 w pm tbl cfgs md st acc tr).1 = .ok rs →
      ∀ c ∈ cfgs, ∃ d, alookup tbl (strD c.databaseId) = some d := by
  intro cfgs
  induction cfgs with
  | nil =>
    intro md st acc tr rs hp c hc
    cases hc
  | cons c0 rest ih =>
    intro md st acc tr rs hp c hc
    unfold pass2 at hp
    cases hl : alookup tbl (strD c0.databaseId) with
    | none => rw [hl] at hp; simp at hp
    | some d =>
      rw [hl] at hp
      simp only at hp
      rcases List.mem_cons.mp hc with rfl | hcrest
      · exact ⟨d, hl⟩
      · split at hp
        · simp at hp
        · exact ih _ _ _ _ rs hp c hcrest

/-- If some source's raw id is missing from the table, pass 2 throws. -/
theorem pass2_err_of_missing (w : World) (pm : PageMap) (tbl : DbTable) :
    ∀ (cfgs : List DbConf) (md : MdDisk) (st : ImgState) (acc : List SyncResult)
      (tr : List Ev) (c : DbConf), c ∈ cfgs →
      alookup tbl (strD c.databaseId) = none →
      ∃ e, (pass2 w pm tbl cfgs md st acc tr).1 = .error e := by
  intro cfgs
  induction cfgs with
  | nil =>
    intro md st acc tr c hc
    cases hc
  | cons c0 rest ih =>
    intro md st acc tr c hc hnone
    unfold pass2
    cases hl : alookup tbl (strD c0.databaseId) with
    | none => exact ⟨_, rfl⟩
    | some d =>
      simp only
      rcases List.mem_cons.mp hc with rfl | hcrest
      · rw [hl] at hnone
        cases hnone
      · split
        · exact ⟨_, rfl⟩
        · exact ih _ _ _ _ c hcrest hnone

/-- Pass 1 records a metadata fetch for every source it processed. -/
theorem pass1_meta_mem (w : World) :
    ∀ (cfgs : List DbConf) (pm : PageMap) (tbl : DbTable) (tr : List Ev)
      (pm2 : PageMap) (tbl2 : DbTable) (tr2 : List Ev),
      pass1 w cfgs pm tbl tr = (.ok (pm2, tbl2), tr2) →
      ∀ c ∈ cfgs, ∀ e, extractDatabaseId (strD c.databaseId) = .ok e →
      Ev.metaFetch e ∈ tr2 := by
  intro cfgs
  induction cfgs with
  | nil =>
    intro pm tbl tr pm2 tbl2 tr2 hp c hc
    cases hc
  | cons c0 rest ih =>
    intro pm tbl tr pm2 tbl2 tr2 hp c hc e he
    unfold pass1 at hp
    by_cases h0 : strD c0.databaseId = ""
    · rw [if_pos h0] at hp
      simp at hp
    · rw [if_neg h0] at hp
      cases hex : extractDatabaseId (strD c0.databaseId) with
      | error e2 => rw [hex] at hp; simp at hp
      | ok dbId =>
        rw [hex] at hp
        simp only at hp
        cases hdet : detectDbConfig c0 with
        | error m => rw [hdet] at hp; simp at hp
        | ok cfg =>
          rw [hdet] at hp
          simp only at hp
          cases hins : insertPages cfg.slugConf cfg.permalinkTpl (w.dbPages dbId) pm with
          | error u => rw [hins] at hp; simp at hp
          | ok pmB =>
            rw [hins] at hp
            simp only at hp
            rcases List.mem_cons.mp hc with rfl | hcrest
            · have hedb : e = dbId := by
                rw [he] at hex
                cases hex
                rfl
              subst hedb
              obtain ⟨sfx, hs, _⟩ := pass1_trace_shape w rest pmB
                (aset tbl e ⟨w.dbPages e, cfg, w.dbTitle e⟩)
                (tr ++ [Ev.metaFetch e] ++ [Ev.pagesFetch e])
              have htr2 : tr2 = tr ++ [Ev.metaFetch e] ++ [Ev.pagesFetch e] ++ sfx := by
                rw [← hs, hp]
              rw [htr2]
              simp
            · exact ih pmB _ _ pm2 tbl2 tr2 hp c hcrest e he

/-- C9: pass 1 stores each source's enumeration result under the extracted
32-hex id, while pass 2 looks it up by the raw configured `databaseId`;
so a run returns results only when every configured id is already its bare
32-hex form, and a source configured with a database URL makes the pass-2
lookup miss and the run throw after pass-1 remote calls were already made. -/
theorem C9_raw_id_lookup :
    (∀ (w : World) (cfgs : List DbConf) (md : MdDisk) (img : List String)
        (rs : List SyncResult),
      (exportModel w cfgs md img).res = .ok rs →
      ∀ c ∈ cfgs, isHex32 (strD c.databaseId) = true ∧
        extractDatabaseId (strD c.databaseId) = .ok (strD c.databaseId)) ∧
    (∀ (w : World) (cfgs : List DbConf) (md : MdDisk) (img : List String)
        (c : DbConf), c ∈ cfgs →
      (∃ pmtbl tr, pass1 w cfgs [] [] [] = (.ok pmtbl, tr)) →
      isHex32 (strD c.databaseId) = false →
      (∃ e, (exportModel w cfgs md img).res = .error e) ∧
      ∀ eid, extractDatabaseId (strD c.databaseId) = .ok eid →
        Ev.metaFetch eid ∈ (exportModel w cfgs md img).trace) := by
  constructor
  · intro w cfgs md img rs hres c hc
    unfold exportModel at hres
    rcases hp : pass1 w cfgs [] [] [] with ⟨r, tr⟩
    rw [hp] at hres
    cases r with
    | error e => simp at hres
    | ok prt =>
      rcases prt with ⟨pm, tbl⟩
      simp only at hres
      rcases hq : pass2 w pm tbl cfgs md ⟨[], img, []⟩ [] tr with ⟨res, md2, st2, tr2⟩
      rw [hq] at hres
      simp only at hres
      have hok : (pass2 w pm tbl cfgs md ⟨[], img, []⟩ [] tr).1 = .ok rs := by
        rw [hq, hres]
      obtain ⟨d, hd⟩ := pass2_ok_lookup w pm tbl cfgs md ⟨[], img, []⟩ [] tr rs hok c hc
      have hhex : isHex32 (strD c.databaseId) = true := by
        refine pass1_tbl_hex w cfgs [] [] [] pm tbl tr hp ?_ _ d hd
        intro k d0 h0
        simp [alookup] at h0
      exact ⟨hhex, extract_of_hex hhex⟩
  · intro w cfgs md img c hc hp1 hfalse
    obtain ⟨pmtbl, tr, hp⟩ := hp1
    rcases pmtbl with ⟨pm, tbl⟩
    have hmiss : alookup tbl (strD c.databaseId) = none := by
      cases hl : alookup tbl (strD c.databaseId) with
      | none => rfl
      | some d =>
        have hhex : isHex32 (strD c.databaseId) = true := by
          refine pass1_tbl_hex w cfgs [] [] [] pm tbl tr hp ?_ _ d hl
          intro k d0 h0
          simp [alookup] at h0
        rw [hhex] at hfalse
        cases hfalse
    obtain ⟨e, he2⟩ := pass2_err_of_missing w pm tbl cfgs md ⟨[], img, []⟩ [] tr c hc hmiss
    constructor
    · refine ⟨e, ?_⟩
      unfold exportModel
      rw [hp]
      simp only
      rcases hq : pass2 w pm tbl cfgs md ⟨[], img, []⟩ [] tr with ⟨res, md2, st2, tr2⟩
      rw [hq] at he2
      simp only at he2 ⊢
      exact he2
    · intro eid heid
      have hmem : Ev.metaFetch eid ∈ tr :=
        pass1_meta_mem w cfgs [] [] [] pm tbl tr hp c hc eid heid
      unfold exportModel
      rw [hp]
      simp only
      rcases hq : pass2 w pm tbl cfgs md ⟨[], img, []⟩ [] tr with ⟨res, md2, st2, tr2⟩
      simp only
      obtain ⟨sfx, hs, _⟩ := pass2_trace_shape w pm tbl cfgs md ⟨[], img, []⟩ [] tr
      rw [hq] at hs
      simp only at hs
      rw [hs]
      exact List.mem_append_left _ hmem

def hexA : String := "aaaaaaaaaaaaaaaaaaaaaaaaaaaaaaaa"

/-- A source configured with a bare 32-hex database id. -/
def cBare : DbConf :=
  { databaseId := some hexA, srcDir := some "src/blog", srcDirImages := none,
    basePath := some "/blog", layout := some "post", excludeProperties := [],
    slug := none, permalink := none, frontMatter := [], cleanBeforeSync := none }

/-- The same source configured with a database URL instead. -/
def cUrl : DbConf :=
  { databaseId := some ("https://www.notion.so/ws/" ++ hexA), srcDir := some "src/blog",
    srcDirImages := none, basePath := some "/blog", layout := some "post",
    excludeProperties := [], slug := none, permalink := none, frontMatter := [],
    cleanBeforeSync := none }

/-- Witness for C9: a bare-id run returns results (and its id is already
extracted), while the URL-configured run fails after its metadata fetch. -/
theorem C9_raw_id_lookup_witness :
    (isHex32 (strD cBare.databaseId) = true ∧
      extractDatabaseId (strD cBare.databaseId) = .ok (strD cBare.databaseId)) ∧
    ((∃ e, (exportModel w0 [cUrl] [] []).res = .error e) ∧
      ∀ eid, extractDatabaseId (strD cUrl.databaseId) = .ok eid →
        Ev.metaFetch eid ∈ (exportModel w0 [cUrl] [] []).trace) :=
  ⟨C9_raw_id_lookup.1 w0 [cBare] [] [] _ rfl cBare (by simp),
   C9_raw_id_lookup.2 w0 [cUrl] [] [] cUrl (by simp) ⟨_, _, rfl⟩ (by decide)⟩


/-! ### Totality of `writePage` on well-formed pages -/

/-- A page whose every property value is well-formed. -/
def pageWf (p : Page) : Bool := p.properties.all fun kv => wfProp kv.2

theorem jlookup_mem {fs : List (String × JVal)} {k : String}
    (h : (jlookup fs k).toBool = true) : ∃ kv ∈ fs, kv.2 = jlookup fs k := by
  induction fs with
  | nil => simp [jlookup, JVal.toBool] at h
  | cons kv rest ih =>
    by_cases hk : kv.1 = k
    · exact ⟨kv, by simp, by simp [jlookup, hk]⟩
    · rw [show jlookup (kv :: rest) k = jlookup rest k by simp [jlookup, hk]] at h ⊢
      obtain ⟨kv2, hm, he⟩ := ih h
      exact ⟨kv2, by simp [hm], he⟩

theorem wfProp_tag {prop : JVal} {tag : String} (hw : wfProp prop = true)
    (hty : fieldOf prop "type" = .str tag) (htag : tag ≠ "") :
    wfByTag tag prop = true := by
  by_cases hb : prop.toBool = true
  · unfold wfProp at hw
    rw [if_pos hb, hty] at hw
    rw [if_pos (by simp [JVal.toBool, htag])] at hw
    exact hw
  · exfalso
    rcases prop with _ | _ | s | n | b | xs | fs <;> simp_all [fieldOf, JVal.toBool]

theorem firstTitle_wf {props : List (String × JVal)} {ts : List JVal}
    (hw : (props.all fun kv => wfProp kv.2) = true)
    (h : firstTitle props = some ts) : ts.all wfRichElem = true := by
  induction props with
  | nil => cases h
  | cons kv rest ih =>
    rw [List.all_cons, Bool.and_eq_true] at hw
    unfold firstTitle at h
    split at h
    · rename_i t ts2 hty hta
      injection h with h2
      subst h2
      have hty2 : fieldOf kv.2 "type" = .str "title" := by
        rcases hv : kv.2 with _ | _ | s | n | b | xs | fs <;>
          rw [hv] at hty <;> simp_all [optChain, fieldOf]
      have hbt := wfProp_tag hw.1 hty2 (by decide)
      unfold wfByTag at hbt
      rw [if_pos rfl, hta] at hbt
      simpa [wfRichArr] using hbt
    · exact ih hw.2 h

theorem getFirstTitleText_ok {p : Page} (hw : pageWf p = true) :
    ∃ v, getFirstTitleText p = .ok v := by
  unfold getFirstTitleText
  cases hf : firstTitle p.properties with
  | none => exact ⟨.null, rfl⟩
  | some ts =>
    obtain ⟨ss, hss⟩ := richTexts_ok (firstTitle_wf (by simpa [pageWf] using hw) hf)
    refine ⟨if jsTrim (jsJoin ss) = "" then JVal.null else JVal.str (jsTrim (jsJoin ss)), ?_⟩
    simp only [hss, bindE]

theorem baseOf_ok {p : Page} {sc : SlugConf} (hw : pageWf p = true) :
    ∃ v, baseOf p sc = .ok v := by
  unfold baseOf
  split
  · exact getFirstTitleText_ok hw
  split
  · exact ⟨_, rfl⟩
  split
  · rename_i hcond
    obtain ⟨kv, hm, he⟩ := jlookup_mem hcond.2
    obtain ⟨a, b⟩ := kv
    have hall : ∀ (a : String) (b : JVal), (a, b) ∈ p.properties → wfProp b = true := by
      simpa [pageWf] using hw
    have hwv : wfProp (jlookup p.properties sc.fromKey) = true := by
      rw [← he]
      exact hall a b hm
    obtain ⟨v, hv, _⟩ := extract_tot _ hwv
    exact ⟨v, hv⟩
  · exact ⟨_, rfl⟩

theorem buildSlug_ok {p : Page} {sc : SlugConf} (hw : pageWf p = true) :
    ∃ s, buildSlug p sc = .ok s := by
  obtain ⟨b, hb⟩ := @baseOf_ok p sc hw
  unfold buildSlug
  rw [hb]
  simp only [bindE]
  split
  · split
    · exact ⟨_, rfl⟩
    · obtain ⟨t, ht⟩ := getFirstTitleText_ok hw
      rw [ht]
      exact ⟨_, rfl⟩
  · exact ⟨_, rfl⟩

theorem propsFold_ok {ex : List String} {props : List (String × JVal)}
    (hw : (props.all fun kv => wfProp kv.2) = true) :
    ∀ acc, ∃ fs, propsFold ex props acc = .ok fs := by
  induction props with
  | nil => exact fun acc => ⟨acc, rfl⟩
  | cons kv rest ih =>
    obtain ⟨name, prop⟩ := kv
    rw [List.all_cons, Bool.and_eq_true] at hw
    intro acc
    unfold propsFold
    split
    · exact ih hw.2 acc
    · obtain ⟨v, hv, _⟩ := extract_tot prop hw.1
      rw [hv]
      simp only [bindE]
      exact ih hw.2 _

theorem pageFrontCore_ok {cfg : DbCfg} {p : Page} {slug permalink : String}
    (hw : pageWf p = true) : ∃ fs, pageFrontCore cfg p slug permalink = .ok fs := by
  obtain ⟨t, ht⟩ := getFirstTitleText_ok hw
  unfold pageFrontCore
  rw [ht]
  simp only [bindE]
  exact propsFold_ok (by simpa [pageWf] using hw) _

theorem writePageM_ok {net : String → Option (List Nat)} {cfg : DbCfg}
    {pm : List (String × String)} {p : Page} (hw : pageWf p = true) (st : ImgState) :
    ∃ s out st2, buildSlug p cfg.slugConf = .ok s ∧
      writePageM net cfg pm p st = .ok (out, st2) ∧
      out.1 = cfg.dir ++ "/" ++ s ++ ".md" := by
  obtain ⟨s, hs⟩ := @buildSlug_ok p cfg.slugConf hw
  obtain ⟨fr, hfr⟩ :=
    @pageFrontCore_ok cfg p s (renderPermalink cfg.permalinkTpl s) hw
  have hrun : ∃ fm body st2, writePageM net cfg pm p st =
      .ok ((cfg.dir ++ "/" ++ s ++ ".md", fm, body), st2) := by
    unfold writePageM
    rw [hs]
    simp only [bindE]
    rw [hfr]
    simp only [bindE]
    exact ⟨_, _, _, rfl⟩
  obtain ⟨fm, body, st2, hr⟩ := hrun
  exact ⟨s, (cfg.dir ++ "/" ++ s ++ ".md", fm, body), st2, hs, hr, rfl⟩

/-! ### The markdown tree after the write loop -/

theorem mdHas_aset {α : Type} (l : List (String × α)) (k path : String) (v : α) :
    (alookup (aset l k v) path).isSome = true ↔
      (path = k ∨ (alookup l path).isSome = true) := by
  by_cases hk : path = k
  · subst hk
    simp [alookup_aset_self]
  · rw [alookup_aset_ne l k path v hk]
    simp [hk]

theorem writeAll_ok {net : String → Option (List Nat)} {pm : PageMap} {cfg : DbCfg}
    {ps : List Page} (hw : ∀ p ∈ ps, pageWf p = true) :
    ∀ md st written tr, ∃ md2 st2 wr2 tr2,
      writeAll net pm cfg ps md st written tr = (.ok (), md2, st2, wr2, tr2) ∧
      ∀ path, (alookup md2 path).isSome = true ↔
        ((alookup md path).isSome = true ∨
         ∃ p ∈ ps, ∃ s, buildSlug p cfg.slugConf = .ok s ∧
           path = cfg.dir ++ "/" ++ s ++ ".md") := by
  induction ps with
  | nil =>
    intro md st written tr
    exact ⟨md, st, written, tr, rfl, by simp⟩
  | cons p ps ih =>
    intro md st written tr
    obtain ⟨s, out, st2, hs, hrun, hpath⟩ :=
      @writePageM_ok net cfg pm p (hw p (by simp)) st
    obtain ⟨md2, st3, wr2, tr2, heq, hiff⟩ :=
      ih (fun q hq => hw q (by simp [hq])) (aset md out.1 out.2) st2
        (if written.contains out.1 then written else written ++ [out.1])
        (tr ++ [.writeFile out.1 out.2.1 out.2.2])
    refine ⟨md2, st3, wr2, tr2, ?_, ?_⟩
    · unfold writeAll
      rw [hrun]
      exact heq
    · intro path
      rw [hiff path, mdHas_aset]
      constructor
      · rintro ((rfl | hold) | ⟨q, hq, s2, hs2, hp2⟩)
        · exact Or.inr ⟨p, by simp, s, hs, hpath⟩
        · exact Or.inl hold
        · exact Or.inr ⟨q, by simp [hq], s2, hs2, hp2⟩
      · rintro (hold | ⟨q, hq, s2, hs2, hp2⟩)
        · exact Or.inl (Or.inr hold)
        · rcases List.mem_cons.mp hq with rfl | hq2
          · rw [hs] at hs2
            injection hs2 with hss
            subst hss
            exact Or.inl (Or.inl (by rw [hp2, hpath]))
          · exact Or.inr ⟨q, hq2, s2, hs2, hp2⟩

/-! ### Written paths live in the source directory -/

theorem mem_of_dropWhile {α : Type} (p : α → Bool) {c : α} {l : List α}
    (h : c ∈ l.dropWhile p) : c ∈ l := by
  induction l with
  | nil => simpa using h
  | cons a l ih =>
    simp only [List.dropWhile] at h
    split at h
    · exact List.mem_cons_of_mem a (ih h)
    · exact h

theorem mem_of_trimChars {c : Char} {cs : List Char} (h : c ∈ trimChars cs) : c ∈ cs := by
  unfold trimChars at h
  rw [List.mem_reverse] at h
  have h2 := mem_of_dropWhile _ h
  rw [List.mem_reverse] at h2
  exact mem_of_dropWhile _ h2

theorem mem_collapseWsAux {c : Char} : ∀ (b : Bool) (l : List Char),
    c ∈ collapseWsAux b l → c = '-' ∨ (c ∈ l ∧ isWs c = false) := by
  intro b l
  induction l generalizing b with
  | nil => intro h; cases h
  | cons a l ih =>
    intro h
    unfold collapseWsAux at h
    by_cases hws : isWs a = true
    · rw [if_pos hws] at h
      rcases b with _ | _
      · rw [if_neg (by simp)] at h
        rcases List.mem_cons.mp h with rfl | h2
        · exact Or.inl rfl
        · rcases ih true h2 with h3 | h3
          · exact Or.inl h3
          · exact Or.inr ⟨List.mem_cons_of_mem a h3.1, h3.2⟩
      · rw [if_pos rfl] at h
        rcases ih true h with h3 | h3
        · exact Or.inl h3
        · exact Or.inr ⟨List.mem_cons_of_mem a h3.1, h3.2⟩
    · rw [if_neg hws] at h
      rcases List.mem_cons.mp h with rfl | h2
      · exact Or.inr ⟨List.mem_cons_self _ _, by simpa using hws⟩
      · rcases ih false h2 with h3 | h3
        · exact Or.inl h3
        · exact Or.inr ⟨List.mem_cons_of_mem a h3.1, h3.2⟩

theorem slugChars {cs : List Char} {c : Char}
    (h : c ∈ collapseWs (trimChars (cs.filter fun c => isAsciiAlnum c || isWs c))) :
    isAsciiAlnum c = true ∨ c = '-' := by
  rcases mem_collapseWsAux false _ h with rfl | ⟨h2, hws⟩
  · exact Or.inr rfl
  · have h3 := (List.mem_filter.mp (mem_of_trimChars h2)).2
    have h4 : isAsciiAlnum c = true ∨ isWs c = true := by simpa using h3
    rcases h4 with h4 | h4
    · exact Or.inl h4
    · rw [h4] at hws; cases hws

theorem lowerChar_ne_slash {c : Char} (h : isAsciiAlnum c = true ∨ c = '-') :
    lowerChar c ≠ '/' := by
  rcases h with h | rfl
  · unfold lowerChar
    split
    all_goals first
      | decide
      | (intro hc; subst hc; exact absurd h (by decide))
  · decide

theorem toSlug_no_slash {s : String} {lower : Bool} {c : Char}
    (h : c ∈ (toSlug s lower).toList) : c ≠ '/' := by
  unfold toSlug at h
  simp only [toList_mk] at h
  rcases lower with _ | _
  · rw [if_neg (by simp)] at h
    rcases slugChars h with h2 | rfl
    · intro hc; subst hc; exact absurd h2 (by decide)
    · decide
  · rw [if_pos rfl] at h
    obtain ⟨c0, hc0, rfl⟩ := List.mem_map.mp h
    exact lowerChar_ne_slash (slugChars hc0)

theorem strToList_append (a b : String) : (a ++ b).toList = a.toList ++ b.toList := by
  cases a; cases b; rfl

theorem isPrefixOf_append (l m : List Char) : l.isPrefixOf (l ++ m) = true := by
  induction l with
  | nil => simp [List.isPrefixOf]
  | cons a l ih => simpa [List.isPrefixOf] using ih

theorem endsMd_append (x : String) : endsMd (x ++ ".md") = true := by
  unfold endsMd endsWithChars List.isSuffixOf
  rw [strToList_append, List.reverse_append]
  exact isPrefixOf_append _ _

theorem inDir_slug {dir s : String} (hns : ∀ c ∈ s.toList, c ≠ '/') :
    inDir dir (dir ++ "/" ++ s ++ ".md") = true := by
  unfold inDir
  have h1 : (dir ++ "/" ++ s ++ ".md").toList
      = (dir ++ "/").toList ++ (s.toList ++ ".md".toList) := by
    rw [strToList_append, strToList_append, List.append_assoc]
  rw [h1, Bool.and_eq_true]
  refine ⟨isPrefixOf_append _ _, ?_⟩
  rw [List.drop_left, List.all_append, Bool.and_eq_true]
  refine ⟨?_, by decide⟩
  simp only [List.all_eq_true, decide_eq_true_eq]
  exact hns

theorem buildSlug_shape {p : Page} {sc : SlugConf} {s : String}
    (h : buildSlug p sc = .ok s) : ∃ t l, s = toSlug t l := by
  unfold buildSlug at h
  cases hb : baseOf p sc with
  | error e => rw [hb] at h; exact Except.noConfusion h
  | ok b =>
    rw [hb] at h
    simp only [bindE] at h
    split at h
    · split at h
      · injection h with h2
        exact ⟨_, _, h2.symm⟩
      · cases ht : getFirstTitleText p with
        | error e => rw [ht] at h; exact Except.noConfusion h
        | ok t =>
          rw [ht] at h
          injection h with h2
          exact ⟨_, _, h2.symm⟩
    · injection h with h2
      exact ⟨_, _, h2.symm⟩

theorem writtenPath_props {cfg : DbCfg} {p : Page} {s : String}
    (hs : buildSlug p cfg.slugConf = .ok s) :
    inDir cfg.dir (cfg.dir ++ "/" ++ s ++ ".md") = true ∧
      endsMd (cfg.dir ++ "/" ++ s ++ ".md") = true := by
  obtain ⟨t, l, rfl⟩ := buildSlug_shape hs
  exact ⟨inDir_slug (fun c hc => toSlug_no_slash hc), endsMd_append _⟩

theorem alookup_filter_key {α : Type} (q : String → Bool) (l : List (String × α))
    (k : String) :
    alookup (l.filter fun e => q e.1) k = if q k = true then alookup l k else none := by
  induction l with
  | nil => simp [alookup]
  | cons e l ih =>
    by_cases hq : q e.1 = true
    · rw [List.filter_cons_of_pos (by simpa using hq)]
      by_cases hk : e.1 = k
      · subst hk
        rw [show alookup (e :: l.filter fun e => q e.1) e.1 = some e.2 from by
              simp [alookup],
            show alookup (e :: l) e.1 = some e.2 from by simp [alookup],
            if_pos hq]
      · rw [show alookup (e :: l.filter fun e => q e.1) k
              = alookup (l.filter fun e => q e.1) k from by simp [alookup, hk],
            show alookup (e :: l) k = alookup l k from by simp [alookup, hk]]
        exact ih
    · rw [List.filter_cons_of_neg (by simpa using hq)]
      by_cases hk : e.1 = k
      · subst hk
        rw [show alookup (e :: l) e.1 = some e.2 from by simp [alookup],
            if_neg (by simpa using hq)]
        exact ih.trans (by rw [if_neg (by simpa using hq)])
      · rw [show alookup (e :: l) k = alookup l k from by simp [alookup, hk]]
        exact ih

theorem insertPages_ok {sc : SlugConf} {tpl : String} {ps : List Page}
    (hw : ∀ p ∈ ps, pageWf p = true) :
    ∀ pm, ∃ pm2, insertPages sc tpl ps pm = .ok pm2 := by
  induction ps with
  | nil => exact fun pm => ⟨pm, rfl⟩
  | cons p ps ih =>
    intro pm
    obtain ⟨s, hs⟩ := @buildSlug_ok p sc (hw p (by simp))
    unfold insertPages
    rw [hs]
    simp only [bindE]
    exact ih (fun q hq => hw q (by simp [hq])) _

/-! ### The single-source run, end to end -/

theorem pass1_single {w : World} {c : DbConf} {cfg : DbCfg}
    (hhex : isHex32 (strD c.databaseId) = true)
    (hcfg : detectDbConfig c = .ok cfg)
    (hw : ∀ p ∈ w.dbPages (strD c.databaseId), pageWf p = true) :
    ∃ pm, pass1 w [c] [] [] []
      = (.ok (pm, aset [] (strD c.databaseId)
          ⟨w.dbPages (strD c.databaseId), cfg, w.dbTitle (strD c.databaseId)⟩),
         [.metaFetch (strD c.databaseId), .pagesFetch (strD c.databaseId)]) := by
  have hid : ¬(strD c.databaseId = "") := by
    intro h
    rw [h] at hhex
    exact absurd hhex (by decide)
  obtain ⟨pm2, hins⟩ :=
    @insertPages_ok cfg.slugConf cfg.permalinkTpl (w.dbPages (strD c.databaseId)) hw []
  refine ⟨pm2, ?_⟩
  unfold pass1
  rw [if_neg hid, extract_of_hex hhex]
  simp only
  rw [hcfg]
  simp only
  rw [hins]
  simp only
  unfold pass1
  simp

theorem pass2_single {w : World} {pm : PageMap} {tbl : DbTable} {c : DbConf}
    {d : SrcData} (hl : alookup tbl (strD c.databaseId) = some d)
    (hw : ∀ p ∈ d.pages, pageWf p = true) :
    ∀ md st acc tr, ∃ md2 st2 tr2 rs,
      pass2 w pm tbl [c] md st acc tr = (.ok rs, md2, st2, tr2) ∧
      ∀ path, (alookup md2 path).isSome = true ↔
        ((alookup (cleanStep c d.cfg md st).1 path).isSome = true ∨
         ∃ p ∈ d.pages, ∃ s, buildSlug p d.cfg.slugConf = .ok s ∧
           path = d.cfg.dir ++ "/" ++ s ++ ".md") := by
  intro md st acc tr
  obtain ⟨md2, st2, wr2, tr2, heq, hiff⟩ :=
    @writeAll_ok w.net pm d.cfg d.pages hw
      (cleanStep c d.cfg md st).1 (cleanStep c d.cfg md st).2.1 [] tr
  refine ⟨md2, st2, tr2,
    acc ++ [⟨strD c.databaseId,
      if d.metaTitle = "" then strD c.databaseId else d.metaTitle,
      d.pages.length, wr2, (cleanStep c d.cfg md st).2.2⟩], ?_, hiff⟩
  unfold pass2
  rw [hl]
  simp only
  rw [heq]
  simp only
  unfold pass2
  rfl

theorem alookup_cons_self {α : Type} (e : String × α) (l : List (String × α)) :
    alookup (e :: l) e.1 = some e.2 := by simp [alookup]

theorem alookup_cons_ne {α : Type} (e : String × α) (l : List (String × α)) {k : String}
    (h : ¬e.1 = k) : alookup (e :: l) k = alookup l k := by simp [alookup, h]

theorem alookup_cleanMd (dir : String) (md : MdDisk) (path : String) :
    alookup (cleanMd dir true md).2 path
      = if (inDir dir path && endsMd path) = true then none else alookup md path := by
  induction md with
  | nil =>
    simp [cleanMd, alookup]
  | cons e l ih =>
    unfold cleanMd at ih ⊢
    simp only at ih ⊢
    by_cases hpr : (inDir dir e.1 && endsMd e.1) = true
    · rw [List.filter_cons_of_neg (by simp [hpr])]
      by_cases hk : e.1 = path
      · subst hk
        rw [ih, if_pos hpr, if_pos hpr]
      · rw [ih, alookup_cons_ne e l hk]
    · have hpr2 : (inDir dir e.1 && endsMd e.1) = false := by
        rwa [Bool.not_eq_true] at hpr
      rw [List.filter_cons_of_pos (by simp [hpr2])]
      by_cases hk : e.1 = path
      · subst hk
        rw [alookup_cons_self, if_neg (by simp [hpr2]), alookup_cons_self]
      · rw [alookup_cons_ne e _ hk, ih, alookup_cons_ne e l hk]

theorem cleanStep_md {c : DbConf} {cfg : DbCfg} (md : MdDisk) (st : ImgState)
    (path : String) :
    alookup (cleanStep c cfg md st).1 path
      = if (cfg.cleanBeforeSync && inDir cfg.dir path && endsMd path) = true then none
        else alookup md path := by
  unfold cleanStep
  by_cases hcl : cfg.cleanBeforeSync = true
  · rw [if_pos hcl, hcl]
    simp only
    rw [alookup_cleanMd]
    simp [Bool.and_assoc]
  · rw [if_neg hcl]
    rw [Bool.not_eq_true] at hcl
    rw [hcl]
    simp

/-! ### Claim C1 -/

/-- A single-source configuration that opts out of clean-before-sync. -/
def c1noclean : DbConf :=
  { databaseId := some hexA, srcDir := some "src/blog", srcDirImages := none,
    basePath := some "/blog", layout := some "post", excludeProperties := [],
    slug := none, permalink := none, frontMatter := [],
    cleanBeforeSync := some false }

/-- C1, counterexample: the claim requires that a pre-existing Markdown file
whose page is absent from the current snapshot is deleted under both
policies; with `cleanBeforeSync: false` the code has no deletion step at
all (there is no diff-after pass), so a stale file survives a successful
run over an empty snapshot. -/
theorem C1_counterexample :
    (exportModel w0 [c1noclean] [("src/blog/stale.md", "x", [])] []).res.isOk = true ∧
    w0.dbPages (strD c1noclean.databaseId) = [] ∧
    (alookup (exportModel w0 [c1noclean] [("src/blog/stale.md", "x", [])] []).md
        "src/blog/stale.md").isSome = true ∧
    inDir "src/blog" "src/blog/stale.md" = true ∧
    endsMd "src/blog/stale.md" = true :=
  ⟨by decide, rfl, by decide, by decide, by decide⟩

/-- C1: reconciliation, as the code actually behaves for a single source
whose pages are well-formed.  The run succeeds; with `cleanBeforeSync`
resolved to `true` (clean-first) the Markdown files of the source directory
afterwards are exactly `{dir}/{slug(p)}.md` for the currently enumerated
pages; with `cleanBeforeSync` resolved to `false` there is no deletion at
all and the final tree is the initial tree plus the newly written files —
the claim's diff-after deletion does not exist. -/
theorem C1_reconciliation {w : World} {c : DbConf} {cfg : DbCfg}
    {md : MdDisk} {imgDisk : List String}
    (hhex : isHex32 (strD c.databaseId) = true)
    (hcfg : detectDbConfig c = .ok cfg)
    (hw : ∀ p ∈ w.dbPages (strD c.databaseId), pageWf p = true) :
    ∃ rs, (exportModel w [c] md imgDisk).res = .ok rs ∧
      ∀ path,
        (cfg.cleanBeforeSync = true →
          (((alookup (exportModel w [c] md imgDisk).md path).isSome = true ∧
              inDir cfg.dir path = true ∧ endsMd path = true) ↔
            ∃ p ∈ w.dbPages (strD c.databaseId), ∃ s,
              buildSlug p cfg.slugConf = .ok s ∧
              path = cfg.dir ++ "/" ++ s ++ ".md")) ∧
        (cfg.cleanBeforeSync = false →
          ((alookup (exportModel w [c] md imgDisk).md path).isSome = true ↔
            ((alookup md path).isSome = true ∨
             ∃ p ∈ w.dbPages (strD c.databaseId), ∃ s,
               buildSlug p cfg.slugConf = .ok s ∧
               path = cfg.dir ++ "/" ++ s ++ ".md"))) := by
  obtain ⟨pm, hp1⟩ := pass1_single hhex hcfg hw
  have hl : alookup (aset ([] : DbTable) (strD c.databaseId)
      ⟨w.dbPages (strD c.databaseId), cfg, w.dbTitle (strD c.databaseId)⟩)
      (strD c.databaseId)
      = some ⟨w.dbPages (strD c.databaseId), cfg, w.dbTitle (strD c.databaseId)⟩ :=
    alookup_aset_self _ _ _
  obtain ⟨md2, st2, tr2, rs, hp2, hiff⟩ :=
    pass2_single hl hw md ⟨[], imgDisk, []⟩ []
      [.metaFetch (strD c.databaseId), .pagesFetch (strD c.databaseId)]
  simp only at hiff
  have hrun : exportModel w [c] md imgDisk = ⟨.ok rs, md2, st2, tr2⟩ := by
    unfold exportModel
    rw [hp1]
    simp only
    rw [hp2]
  rw [hrun]
  refine ⟨rs, rfl, ?_⟩
  intro path
  constructor
  · intro hcl
    constructor
    · rintro ⟨hmem, hdir, hmd⟩
      rcases (hiff path).mp hmem with hold | hnew
      · rw [cleanStep_md, if_pos (by simp [hcl, hdir, hmd])] at hold
        exact absurd hold (by decide)
      · exact hnew
    · rintro ⟨p, hpmem, s, hs, rfl⟩
      exact ⟨(hiff _).mpr (Or.inr ⟨p, hpmem, s, hs, rfl⟩),
        (writtenPath_props hs).1, (writtenPath_props hs).2⟩
  · intro hcl
    rw [hiff path, cleanStep_md, if_neg (by simp [hcl])]

/-- The configuration that `detectDbConfig` resolves for `cBare`. -/
def c1cfg : DbCfg :=
  { dir := "src/blog", imagesDir := "src/images/notion", basePath := "/blog",
    layout := "post", excludeProps := [], slugConf := ⟨"title", "id", some true⟩,
    permalinkTpl := "/blog/{slug}/", fmExtras := [], cleanBeforeSync := true }

/-- A well-formed page with a title property. -/
def pg1 : Page :=
  { id := hexA,
    properties := [("Name", .obj [("type", .str "title"),
      ("title", .arr [.obj [("plain_text", .str "Hello World")]])])],
    cover := .null, icon := .null, bodyConv := some [.text "hi"] }

/-- A world with one page in every database. -/
def w1 : World :=
  { dbTitle := fun _ => "Blog", dbPages := fun _ => [pg1], net := fun _ => none }

/-- C1, witness: the reconciliation theorem applied to a concrete
clean-first source with one well-formed page. -/
theorem C1_reconciliation_witness :
    (isHex32 (strD cBare.databaseId) = true ∧
     detectDbConfig cBare = .ok c1cfg ∧
     (∀ p ∈ w1.dbPages (strD cBare.databaseId), pageWf p = true)) ∧
    (∃ rs, (exportModel w1 [cBare] [] []).res = .ok rs ∧
      ∀ path,
        (c1cfg.cleanBeforeSync = true →
          (((alookup (exportModel w1 [cBare] [] []).md path).isSome = true ∧
              inDir c1cfg.dir path = true ∧ endsMd path = true) ↔
            ∃ p ∈ w1.dbPages (strD cBare.databaseId), ∃ s,
              buildSlug p c1cfg.slugConf = .ok s ∧
              path = c1cfg.dir ++ "/" ++ s ++ ".md")) ∧
        (c1cfg.cleanBeforeSync = false →
          ((alookup (exportModel w1 [cBare] [] []).md path).isSome = true ↔
            (((alookup ([] : MdDisk) path).isSome = true) ∨
             ∃ p ∈ w1.dbPages (strD cBare.databaseId), ∃ s,
               buildSlug p c1cfg.slugConf = .ok s ∧
               path = c1cfg.dir ++ "/" ++ s ++ ".md")))) :=
  ⟨⟨by decide, rfl,
    by intro p hp
       have hp2 : p ∈ [pg1] := hp
       rw [List.mem_singleton] at hp2
       subst hp2
       decide⟩,
   C1_reconciliation (by decide) rfl
     (by intro p hp
         have hp2 : p ∈ [pg1] := hp
         rw [List.mem_singleton] at hp2
         subst hp2
         decide)⟩

/-! ### Claim C10 -/

/-- C10: in the front matter built by `writePage`, the exclusion check uses
the untrimmed property name; a non-excluded property whose normalized value
exists is omitted exactly when that value is `null`, `undefined` or the
empty string (`omittedVal`), and is otherwise written under the trimmed
name; a false checkbox and an empty `multi_select` normalize to `false`
and `[]`, neither of which is omitted. -/
theorem C10_front_matter_filter (ex : List String) (acc : List (String × JVal))
    (name : String) (prop : JVal) (rest : List (String × JVal)) :
    (ex.contains name = true →
      propsFold ex ((name, prop) :: rest) acc = propsFold ex rest acc) ∧
    (ex.contains name = false → ∀ v, extractPropValue prop = .ok v →
      propsFold ex ((name, prop) :: rest) acc
        = propsFold ex rest (if omittedVal v then acc else aset acc (jsTrim name) v)) ∧
    (∀ v, omittedVal v = true ↔ (v = .null ∨ v = .undef ∨ v = .str "")) ∧
    extractPropValue (.obj [("type", .str "checkbox"), ("checkbox", .bool false)])
      = .ok (.bool false) ∧
    omittedVal (.bool false) = false ∧
    extractPropValue (.obj [("type", .str "multi_select"), ("multi_select", .arr [])])
      = .ok (.arr []) ∧
    omittedVal (.arr []) = false := by
  have hstep : propsFold ex ((name, prop) :: rest) acc
      = if ex.contains name then propsFold ex rest acc
        else extractPropValue prop >>= fun v =>
          propsFold ex rest (if omittedVal v then acc else aset acc (jsTrim name) v) := rfl
  refine ⟨?_, ?_, ?_, rfl, rfl, rfl, rfl⟩
  · intro hex
    rw [hstep, if_pos hex]
  · intro hex v hv
    rw [hstep, if_neg (by rw [hex]; simp), hv]
    simp only [bindE]
  · intro v
    cases v <;> simp [omittedVal]

/-- C10, witness: a property named with surrounding spaces, not excluded,
normalizing to an empty `multi_select` array, is written under the trimmed
key. -/
theorem C10_front_matter_filter_witness :
    (["Internal"] : List String).contains " Tags " = false ∧
    extractPropValue (.obj [("type", .str "multi_select"), ("multi_select", .arr [])])
      = .ok (.arr []) ∧
    propsFold ["Internal"]
        [(" Tags ", .obj [("type", .str "multi_select"), ("multi_select", .arr [])])] []
      = .ok [("Tags", .arr [])] := by
  refine ⟨by decide, rfl, ?_⟩
  have h :=
    (C10_front_matter_filter ["Internal"] [] " Tags "
        (.obj [("type", .str "multi_select"), ("multi_select", .arr [])]) []).2.1
      (by decide) (.arr []) rfl
  exact h.trans rfl

/-! ### Claim C5: run-to-run determinism -/

/-- Two image states that agree on everything the emitted output depends
on: the URL cache and the download log (the on-disk file set is only
written to, never read back into any output). -/
def StEq (a b : ImgState) : Prop := a.cache = b.cache ∧ a.downloads = b.downloads

theorem save_congr {st st2 : ImgState} (h : StEq st st2)
    (net : String → Option (List Nat)) (u slug idx dir : String) :
    (saveNotionImage net u slug idx dir st).1
      = (saveNotionImage net u slug idx dir st2).1 ∧
    StEq (saveNotionImage net u slug idx dir st).2
      (saveNotionImage net u slug idx dir st2).2 := by
  obtain ⟨hc, hd⟩ := h
  unfold saveNotionImage
  rw [hc, hd]
  cases halk : alookup st2.cache u with
  | some p => exact ⟨rfl, hc, hd⟩
  | none =>
    cases hnet : net u with
    | none => exact ⟨rfl, rfl, rfl⟩
    | some bytes => exact ⟨rfl, rfl, rfl⟩

theorem rewriteBody_congr (net : String → Option (List Nat))
    (pm : List (String × String)) (slug dir : String) :
    ∀ (ts : List Tok) (k : Nat) {st st2 : ImgState}, StEq st st2 →
      (rewriteBody net pm slug dir ts k st).1
        = (rewriteBody net pm slug dir ts k st2).1 ∧
      (rewriteBody net pm slug dir ts k st).2.1
        = (rewriteBody net pm slug dir ts k st2).2.1 ∧
      StEq (rewriteBody net pm slug dir ts k st).2.2
        (rewriteBody net pm slug dir ts k st2).2.2 := by
  intro ts
  induction ts with
  | nil =>
    intro k st st2 h
    exact ⟨rfl, rfl, h⟩
  | cons t ts ih =>
    intro k st st2 h
    cases t with
    | text s =>
      obtain ⟨h1, h2, h3⟩ := ih k h
      simp only [rewriteBody]
      exact ⟨by rw [h1], by rw [h2], h3⟩
    | link img alt url =>
      cases img with
      | true =>
        simp only [rewriteBody]
        by_cases hna : isNotionAsset url = true
        · rw [if_pos hna, if_pos hna]
          obtain ⟨hp1, hpst⟩ := save_congr h net url slug (toString k) dir
          obtain ⟨h1, h2, h3⟩ := ih (k + 1) hpst
          exact ⟨by rw [hp1, h1], by rw [h2], h3⟩
        · rw [if_neg hna, if_neg hna]
          obtain ⟨h1, h2, h3⟩ := ih k h
          exact ⟨by rw [h1], by rw [h2], h3⟩
      | false =>
        simp only [rewriteBody]
        cases hnid : notionUrlId url with
        | none =>
          simp only
          obtain ⟨h1, h2, h3⟩ := ih k h
          exact ⟨by rw [h1], by rw [h2], h3⟩
        | some nid =>
          simp only
          cases hperm : alookup pm nid with
          | none =>
            simp only
            obtain ⟨h1, h2, h3⟩ := ih k h
            exact ⟨by rw [h1], by rw [h2], h3⟩
          | some perm =>
            simp only
            obtain ⟨h1, h2, h3⟩ := ih (k + 1) h
            exact ⟨by rw [h1], by rw [h2], h3⟩

theorem pageBody_congr (net : String → Option (List Nat))
    (pm : List (String × String)) (slug dir : String) (conv : Option (List Tok))
    {st st2 : ImgState} (h : StEq st st2) :
    (pageBody net pm slug dir conv st).1 = (pageBody net pm slug dir conv st2).1 ∧
    StEq (pageBody net pm slug dir conv st).2 (pageBody net pm slug dir conv st2).2 := by
  cases conv with
  | none => exact ⟨rfl, h⟩
  | some toks =>
    obtain ⟨h1, h2, h3⟩ := rewriteBody_congr net pm slug dir toks 0 h
    exact ⟨h1, h3⟩

theorem writePageM_congr (net : String → Option (List Nat)) (cfg : DbCfg)
    (pm : List (String × String)) (p : Page) {st st2 : ImgState} (h : StEq st st2) :
    (writePageM net cfg pm p st = .error () ∧ writePageM net cfg pm p st2 = .error ()) ∨
    (∃ out s s2, writePageM net cfg pm p st = .ok (out, s) ∧
      writePageM net cfg pm p st2 = .ok (out, s2) ∧ StEq s s2) := by
  unfold writePageM
  cases hs : buildSlug p cfg.slugConf with
  | error e => exact Or.inl ⟨rfl, rfl⟩
  | ok slug =>
    simp only [bindE]
    cases hf : pageFrontCore cfg p slug (renderPermalink cfg.permalinkTpl slug) with
    | error e => exact Or.inl ⟨rfl, rfl⟩
    | ok front =>
      simp only [bindE]
      cases hcov : coverUrlOf p.cover with
      | none =>
        simp only
        cases hico : iconUrlOf p.icon with
        | none =>
          simp only
          obtain ⟨hb1, hb2⟩ := pageBody_congr net pm slug cfg.imagesDir p.bodyConv h
          refine Or.inr ⟨_, _, (pageBody net pm slug cfg.imagesDir p.bodyConv st2).2,
            rfl, ?_, ?_⟩
          · rw [hb1]
          · exact hb2
        | some u2 =>
          simp only
          obtain ⟨hi1, hist⟩ := save_congr h net u2 slug "icon" cfg.imagesDir
          obtain ⟨hb1, hb2⟩ := pageBody_congr net pm slug cfg.imagesDir p.bodyConv hist
          refine Or.inr ⟨_, _, (pageBody net pm slug cfg.imagesDir p.bodyConv
              (saveNotionImage net u2 slug "icon" cfg.imagesDir st2).2).2,
            rfl, ?_, ?_⟩
          · rw [hi1, hb1]
          · exact hb2
      | some u =>
        simp only
        obtain ⟨hc1, hcst⟩ := save_congr h net u slug "cover" cfg.imagesDir
        cases hico : iconUrlOf p.icon with
        | none =>
          simp only
          obtain ⟨hb1, hb2⟩ := pageBody_congr net pm slug cfg.imagesDir p.bodyConv hcst
          refine Or.inr ⟨_, _, (pageBody net pm slug cfg.imagesDir p.bodyConv
              (saveNotionImage net u slug "cover" cfg.imagesDir st2).2).2,
            rfl, ?_, ?_⟩
          · rw [hc1, hb1]
          · exact hb2
        | some u2 =>
          simp only
          obtain ⟨hi1, hist⟩ := save_congr hcst net u2 slug "icon" cfg.imagesDir
          obtain ⟨hb1, hb2⟩ := pageBody_congr net pm slug cfg.imagesDir p.bodyConv hist
          refine Or.inr ⟨_, _, (pageBody net pm slug cfg.imagesDir p.bodyConv
              (saveNotionImage net u2 slug "icon" cfg.imagesDir
                (saveNotionImage net u slug "cover" cfg.imagesDir st2).2).2).2,
            rfl, ?_, ?_⟩
          · rw [hc1, hi1, hb1]
          · exact hb2

theorem writeAll_congr (net : String → Option (List Nat)) (pm : PageMap) (cfg : DbCfg) :
    ∀ (ps : List Page) (md md2 : MdDisk) {st st2 : ImgState}, StEq st st2 →
      ∀ (written : List String) (tr : List Ev),
      (writeAll net pm cfg ps md st written tr).1
        = (writeAll net pm cfg ps md2 st2 written tr).1 ∧
      (writeAll net pm cfg ps md st written tr).2.2.2.1
        = (writeAll net pm cfg ps md2 st2 written tr).2.2.2.1 ∧
      (writeAll net pm cfg ps md st written tr).2.2.2.2
        = (writeAll net pm cfg ps md2 st2 written tr).2.2.2.2 ∧
      StEq (writeAll net pm cfg ps md st written tr).2.2.1
        (writeAll net pm cfg ps md2 st2 written tr).2.2.1 := by
  intro ps
  induction ps with
  | nil =>
    intro md md2 st st2 h written tr
    exact ⟨rfl, rfl, rfl, h⟩
  | cons p ps ih =>
    intro md md2 st st2 h written tr
    rcases writePageM_congr net cfg pm p h with ⟨he1, he2⟩ | ⟨out, s, s2, ho1, ho2, hss⟩
    · simp only [writeAll]
      rw [he1, he2]
      simp only
      exact ⟨by trivial, by trivial, by trivial, h⟩
    · simp only [writeAll]
      rw [ho1, ho2]
      simp only
      exact ih _ _ hss _ _

theorem cleanStep_stEq (c : DbConf) (cfg : DbCfg) (md : MdDisk) (st : ImgState) :
    StEq (cleanStep c cfg md st).2.1 st := by
  unfold cleanStep
  split
  · exact ⟨rfl, rfl⟩
  · exact ⟨rfl, rfl⟩

theorem stEq_trans {a b c : ImgState} (h1 : StEq a b) (h2 : StEq b c) : StEq a c :=
  ⟨h1.1.trans h2.1, h1.2.trans h2.2⟩

theorem stEq_symm {a b : ImgState} (h : StEq a b) : StEq b a := ⟨h.1.symm, h.2.symm⟩

/-- The run-to-run reproducible part of a per-source result: everything but
`filesDeleted` (which reflects what the previous state left on disk). -/
def srVis (r : SyncResult) : String × String × Nat × List String :=
  (r.databaseId, r.databaseTitle, r.pagesExported, r.filesWritten)

def resVis : Except String (List SyncResult) →
    Except String (List (String × String × Nat × List String))
  | .error e => .error e
  | .ok rs => .ok (rs.map srVis)

theorem pass2_congr (w : World) (pm : PageMap) (tbl : DbTable) :
    ∀ (cfgs : List DbConf) (md md2 : MdDisk) {st st2 : ImgState}, StEq st st2 →
      ∀ (acc acc2 : List SyncResult), acc.map srVis = acc2.map srVis →
      ∀ (tr : List Ev),
      resVis (pass2 w pm tbl cfgs md st acc tr).1
        = resVis (pass2 w pm tbl cfgs md2 st2 acc2 tr).1 ∧
      (pass2 w pm tbl cfgs md st acc tr).2.2.2
        = (pass2 w pm tbl cfgs md2 st2 acc2 tr).2.2.2 ∧
      StEq (pass2 w pm tbl cfgs md st acc tr).2.2.1
        (pass2 w pm tbl cfgs md2 st2 acc2 tr).2.2.1 := by
  intro cfgs
  induction cfgs with
  | nil =>
    intro md md2 st st2 h acc acc2 hacc tr
    refine ⟨?_, rfl, h⟩
    simp only [pass2, resVis]
    rw [hacc]
  | cons c rest ih =>
    intro md md2 st st2 h acc acc2 hacc tr
    simp only [pass2]
    cases hl : alookup tbl (strD c.databaseId) with
    | none =>
      simp only
      exact ⟨by trivial, by trivial, h⟩
    | some d =>
      simp only
      have hcl : StEq (cleanStep c d.cfg md st).2.1 (cleanStep c d.cfg md2 st2).2.1 :=
        stEq_trans (cleanStep_stEq c d.cfg md st)
          (stEq_trans h (stEq_symm (cleanStep_stEq c d.cfg md2 st2)))
      rcases hw1 : writeAll w.net pm d.cfg d.pages (cleanStep c d.cfg md st).1
          (cleanStep c d.cfg md st).2.1 [] tr with ⟨res1, mdA, stA, wrA, trA⟩
      rcases hw2 : writeAll w.net pm d.cfg d.pages (cleanStep c d.cfg md2 st2).1
          (cleanStep c d.cfg md2 st2).2.1 [] tr with ⟨res2, mdB, stB, wrB, trB⟩
      obtain ⟨hres, hwr, htr, hst⟩ :=
        writeAll_congr w.net pm d.cfg d.pages (cleanStep c d.cfg md st).1
          (cleanStep c d.cfg md2 st2).1 hcl [] tr
      rw [hw1, hw2] at hres hwr htr hst
      simp only at hres hwr htr hst
      cases res1 with
      | error e =>
        rw [← hres]
        simp only
        exact ⟨by trivial, htr, hst⟩
      | ok u =>
        rw [← hres]
        simp only
        rw [← htr]
        refine ih mdA mdB hst _ _ ?_ trA
        rw [List.map_append, List.map_append, hacc]
        simp only [List.map_cons, List.map_nil, srVis]
        rw [hwr]

/-- C5: determinism / idempotence.  For a fixed remote snapshot and
configuration the run's outcome does not depend on the markdown tree or the
image files left by previous runs: the per-source results (modulo
`filesDeleted`, which reports what the previous state left behind), the
whole event trace — hence every written file name and every front-matter
byte — and the download log coincide between any two runs.  Re-running
with an unchanged snapshot therefore reproduces byte-identical files. -/
theorem C5_determinism (w : World) (cfgs : List DbConf) (md md2 : MdDisk)
    (imgDisk imgDisk2 : List String) :
    resVis (exportModel w cfgs md imgDisk).res
      = resVis (exportModel w cfgs md2 imgDisk2).res ∧
    (exportModel w cfgs md imgDisk).trace = (exportModel w cfgs md2 imgDisk2).trace ∧
    (exportModel w cfgs md imgDisk).img.cache
      = (exportModel w cfgs md2 imgDisk2).img.cache ∧
    (exportModel w cfgs md imgDisk).img.downloads
      = (exportModel w cfgs md2 imgDisk2).img.downloads := by
  unfold exportModel
  rcases hp : pass1 w cfgs [] [] [] with ⟨res, tr⟩
  cases res with
  | error e => exact ⟨rfl, rfl, rfl, rfl⟩
  | ok pmtbl =>
    obtain ⟨pm, tbl⟩ := pmtbl
    simp only
    obtain ⟨hres, htr, hst⟩ :=
      pass2_congr w pm tbl cfgs md md2 (⟨rfl, rfl⟩ : StEq ⟨[], imgDisk, []⟩ ⟨[], imgDisk2, []⟩)
        [] [] rfl tr
    rcases hq1 : pass2 w pm tbl cfgs md ⟨[], imgDisk, []⟩ [] tr with ⟨r1, mdA, stA, trA⟩
    rcases hq2 : pass2 w pm tbl cfgs md2 ⟨[], imgDisk2, []⟩ [] tr with ⟨r2, mdB, stB, trB⟩
    rw [hq1, hq2] at hres htr hst
    simp only at hres htr hst
    exact ⟨hres, htr, hst.1, hst.2⟩

/-! ### Claim C2: cross-source link resolution through the two-pass map -/

/-- Link rewriting resolves a mapped Notion URL to its permalink in every
emitted body, and, provided no stored permalink equals the raw URL, the raw
URL never survives on a non-image link. -/
theorem rewriteBody_resolves {net : String → Option (List Nat)}
    {pm : List (String × String)} {slug dir url nid perm : String}
    (hurl : notionUrlId url = some nid)
    (hperm : alookup pm nid = some perm)
    (hval : ∀ k v, alookup pm k = some v → v ≠ url) :
    ∀ (toks : List Tok) (k : Nat) (st : ImgState),
      (∀ a, Tok.link false a url ∈ toks →
        Tok.link false a perm ∈ (rewriteBody net pm slug dir toks k st).1) ∧
      (∀ a, Tok.link false a url ∉ (rewriteBody net pm slug dir toks k st).1) := by
  intro toks
  induction toks with
  | nil =>
    intro k st
    exact ⟨fun a ha => absurd ha (by simp), fun a => by simp [rewriteBody]⟩
  | cons t ts ih =>
    intro k st
    cases t with
    | text s =>
      simp only [rewriteBody]
      refine ⟨fun a ha => ?_, fun a ha => ?_⟩
      · rcases List.mem_cons.mp ha with hc | hc
        · cases hc
        · exact List.mem_cons_of_mem _ ((ih k st).1 a hc)
      · rcases List.mem_cons.mp ha with hc | hc
        · cases hc
        · exact (ih k st).2 a hc
    | link img alt2 u =>
      cases img with
      | true =>
        simp only [rewriteBody]
        by_cases hna : isNotionAsset u = true
        · rw [if_pos hna]
          refine ⟨fun a ha => ?_, fun a ha => ?_⟩
          · rcases List.mem_cons.mp ha with hc | hc
            · cases hc
            · exact List.mem_cons_of_mem _ ((ih (k + 1) _).1 a hc)
          · rcases List.mem_cons.mp ha with hc | hc
            · cases hc
            · exact (ih (k + 1) _).2 a hc
        · rw [if_neg hna]
          refine ⟨fun a ha => ?_, fun a ha => ?_⟩
          · rcases List.mem_cons.mp ha with hc | hc
            · cases hc
            · exact List.mem_cons_of_mem _ ((ih k st).1 a hc)
          · rcases List.mem_cons.mp ha with hc | hc
            · cases hc
            · exact (ih k st).2 a hc
      | false =>
        simp only [rewriteBody]
        by_cases hu : u = url
        · subst hu
          rw [hurl]
          simp only
          rw [hperm]
          simp only
          refine ⟨fun a ha => ?_, fun a ha => ?_⟩
          · rcases List.mem_cons.mp ha with hc | hc
            · injection hc with h1 h2 h3
              subst h2
              exact List.mem_cons_self _ _
            · exact List.mem_cons_of_mem _ ((ih (k + 1) st).1 a hc)
          · rcases List.mem_cons.mp ha with hc | hc
            · injection hc with h1 h2 h3
              exact absurd h3.symm (hval nid perm hperm)
            · exact (ih (k + 1) st).2 a hc
        · cases hnid2 : notionUrlId u with
          | none =>
            simp only
            refine ⟨fun a ha => ?_, fun a ha => ?_⟩
            · rcases List.mem_cons.mp ha with hc | hc
              · injection hc with h1 h2 h3
                exact absurd h3.symm hu
              · exact List.mem_cons_of_mem _ ((ih k st).1 a hc)
            · rcases List.mem_cons.mp ha with hc | hc
              · injection hc with h1 h2 h3
                exact absurd h3.symm hu
              · exact (ih k st).2 a hc
          | some nid2 =>
            simp only
            cases hperm2 : alookup pm nid2 with
            | none =>
              simp only
              refine ⟨fun a ha => ?_, fun a ha => ?_⟩
              · rcases List.mem_cons.mp ha with hc | hc
                · injection hc with h1 h2 h3
                  exact absurd h3.symm hu
                · exact List.mem_cons_of_mem _ ((ih k st).1 a hc)
              · rcases List.mem_cons.mp ha with hc | hc
                · injection hc with h1 h2 h3
                  exact absurd h3.symm hu
                · exact (ih k st).2 a hc
            | some perm2 =>
              simp only
              refine ⟨fun a ha => ?_, fun a ha => ?_⟩
              · rcases List.mem_cons.mp ha with hc | hc
                · injection hc with h1 h2 h3
                  exact absurd h3.symm hu
                · exact List.mem_cons_of_mem _ ((ih (k + 1) st).1 a hc)
              · rcases List.mem_cons.mp ha with hc | hc
                · injection hc with h1 h2 h3
                  exact absurd h3.symm (hval nid2 perm2 hperm2)
                · exact (ih (k + 1) st).2 a hc

/-- The identifier keys pass 1 inserts into the page map, per source, in
order. -/
def stripIds (w : World) : List DbConf → List String
  | [] => []
  | c :: rest =>
    ((w.dbPages (strD c.databaseId)).map fun p => stripDashes p.id) ++ stripIds w rest

theorem insertPages_frame {sc : SlugConf} {tpl : String} :
    ∀ {ps : List Page} {pm pm2 : PageMap},
      insertPages sc tpl ps pm = .ok pm2 →
      ∀ k, (∀ q ∈ ps, stripDashes q.id ≠ k) → alookup pm2 k = alookup pm k := by
  intro ps
  induction ps with
  | nil =>
    intro pm pm2 h k hk
    injection h with h2
    rw [h2]
  | cons p ps ih =>
    intro pm pm2 h k hk
    unfold insertPages at h
    cases hb : buildSlug p sc with
    | error e => rw [hb] at h; exact Except.noConfusion h
    | ok s =>
      rw [hb] at h
      simp only [bindE] at h
      rw [ih h k (fun q hq => hk q (List.mem_cons_of_mem p hq))]
      exact alookup_aset_ne pm (stripDashes p.id) k _ fun he =>
        hk p (List.mem_cons_self p ps) he.symm

theorem insertPages_found {sc : SlugConf} {tpl : String} :
    ∀ {ps : List Page} {pm pm2 : PageMap},
      insertPages sc tpl ps pm = .ok pm2 →
      (ps.map fun p => stripDashes p.id).Nodup →
      ∀ q ∈ ps, ∃ s, buildSlug q sc = .ok s ∧
        alookup pm2 (stripDashes q.id) = some (renderPermalink tpl s) := by
  intro ps
  induction ps with
  | nil =>
    intro pm pm2 h hnd q hq
    cases hq
  | cons p ps ih =>
    intro pm pm2 h hnd q hq
    unfold insertPages at h
    cases hb : buildSlug p sc with
    | error e => rw [hb] at h; exact Except.noConfusion h
    | ok s =>
      rw [hb] at h
      simp only [bindE] at h
      rw [List.map_cons, List.nodup_cons] at hnd
      rcases List.mem_cons.mp hq with rfl | hq2
      · refine ⟨s, hb, ?_⟩
        rw [insertPages_frame h _ fun q2 hq2 he =>
          hnd.1 (by rw [← he]; exact List.mem_map_of_mem _ hq2)]
        exact alookup_aset_self pm _ _
      · exact ih h hnd.2 q hq2

theorem insertPages_vals {sc : SlugConf} {tpl : String} :
    ∀ {ps : List Page} {pm pm2 : PageMap},
      insertPages sc tpl ps pm = .ok pm2 →
      ∀ k v, alookup pm2 k = some v →
        alookup pm k = some v ∨ ∃ s, v = renderPermalink tpl s := by
  intro ps
  induction ps with
  | nil =>
    intro pm pm2 h k v hv
    injection h with h2
    rw [← h2] at hv
    exact Or.inl hv
  | cons p ps ih =>
    intro pm pm2 h k v hv
    unfold insertPages at h
    cases hb : buildSlug p sc with
    | error e => rw [hb] at h; exact Except.noConfusion h
    | ok s =>
      rw [hb] at h
      simp only [bindE] at h
      rcases ih h k v hv with hold | hnew
      · by_cases hk : k = stripDashes p.id
        · subst hk
          rw [alookup_aset_self] at hold
          injection hold with h3
          exact Or.inr ⟨s, h3.symm⟩
        · rw [alookup_aset_ne pm _ k _ hk] at hold
          exact Or.inl hold
      · exact Or.inr hnew

theorem pass1_cons_ok {w : World} {c : DbConf} {rest : List DbConf} {pm pm2 : PageMap}
    {tbl tbl2 : DbTable} {tr tr2 : List Ev}
    (h : pass1 w (c :: rest) pm tbl tr = (.ok (pm2, tbl2), tr2))
    (hhex : isHex32 (strD c.databaseId) = true) :
    ∃ cfg pmMid, detectDbConfig c = .ok cfg ∧
      insertPages cfg.slugConf cfg.permalinkTpl (w.dbPages (strD c.databaseId)) pm
        = .ok pmMid ∧
      pass1 w rest pmMid
        (aset tbl (strD c.databaseId)
          ⟨w.dbPages (strD c.databaseId), cfg, w.dbTitle (strD c.databaseId)⟩)
        (tr ++ [.metaFetch (strD c.databaseId)] ++ [.pagesFetch (strD c.databaseId)])
        = (.ok (pm2, tbl2), tr2) := by
  have hid : ¬(strD c.databaseId = "") := by
    intro he
    rw [he] at hhex
    exact absurd hhex (by decide)
  unfold pass1 at h
  rw [if_neg hid, extract_of_hex hhex] at h
  simp only at h
  cases hdet : detectDbConfig c with
  | error e =>
    rw [hdet] at h
    simp only at h
    injection h with h1 h2
    exact Except.noConfusion h1
  | ok cfg =>
    rw [hdet] at h
    simp only at h
    cases hins : insertPages cfg.slugConf cfg.permalinkTpl
        (w.dbPages (strD c.databaseId)) pm with
    | error e =>
      rw [hins] at h
      simp only at h
      injection h with h1 h2
      exact Except.noConfusion h1
    | ok pmMid =>
      rw [hins] at h
      simp only at h
      exact ⟨cfg, pmMid, rfl, hins, h⟩

theorem pass1_pm_frame {w : World} :
    ∀ {cfgs : List DbConf} {pm pm2 : PageMap} {tbl tbl2 : DbTable} {tr tr2 : List Ev},
      pass1 w cfgs pm tbl tr = (.ok (pm2, tbl2), tr2) →
      (∀ c ∈ cfgs, isHex32 (strD c.databaseId) = true) →
      ∀ k, k ∉ stripIds w cfgs → alookup pm2 k = alookup pm k := by
  intro cfgs
  induction cfgs with
  | nil =>
    intro pm pm2 tbl tbl2 tr tr2 h hhex k hk
    unfold pass1 at h
    injection h with h1 h2
    injection h1 with h3
    injection h3 with h4 h5
    rw [h4]
  | cons c rest ih =>
    intro pm pm2 tbl tbl2 tr tr2 h hhex k hk
    obtain ⟨cfg, pmMid, hdet, hins, hrest⟩ := pass1_cons_ok h (hhex c (by simp))
    rw [stripIds] at hk
    rw [ih hrest (fun c2 hc2 => hhex c2 (by simp [hc2])) k
        (fun hm => hk (List.mem_append_right _ hm))]
    exact insertPages_frame hins k fun q hq he =>
      hk (List.mem_append_left _ (by rw [← he]; exact List.mem_map_of_mem _ hq))

theorem pass1_tbl_frame {w : World} :
    ∀ {cfgs : List DbConf} {pm pm2 : PageMap} {tbl tbl2 : DbTable} {tr tr2 : List Ev},
      pass1 w cfgs pm tbl tr = (.ok (pm2, tbl2), tr2) →
      (∀ c ∈ cfgs, isHex32 (strD c.databaseId) = true) →
      ∀ k, (∀ c ∈ cfgs, strD c.databaseId ≠ k) → alookup tbl2 k = alookup tbl k := by
  intro cfgs
  induction cfgs with
  | nil =>
    intro pm pm2 tbl tbl2 tr tr2 h hhex k hk
    unfold pass1 at h
    injection h with h1 h2
    injection h1 with h3
    injection h3 with h4 h5
    rw [h5]
  | cons c rest ih =>
    intro pm pm2 tbl tbl2 tr tr2 h hhex k hk
    obtain ⟨cfg, pmMid, hdet, hins, hrest⟩ := pass1_cons_ok h (hhex c (by simp))
    rw [ih hrest (fun c2 hc2 => hhex c2 (by simp [hc2]))
        k (fun c2 hc2 => hk c2 (by simp [hc2]))]
    exact alookup_aset_ne tbl _ k _ fun he => hk c (by simp) he.symm

theorem pass1_pm_found {w : World} :
    ∀ {cfgs : List DbConf} {pm pm2 : PageMap} {tbl tbl2 : DbTable} {tr tr2 : List Ev},
      pass1 w cfgs pm tbl tr = (.ok (pm2, tbl2), tr2) →
      (∀ c ∈ cfgs, isHex32 (strD c.databaseId) = true) →
      (stripIds w cfgs).Nodup →
      ∀ c ∈ cfgs, ∀ cfg, detectDbConfig c = .ok cfg →
        ∀ q ∈ w.dbPages (strD c.databaseId), ∃ s, buildSlug q cfg.slugConf = .ok s ∧
          alookup pm2 (stripDashes q.id)
            = some (renderPermalink cfg.permalinkTpl s) := by
  intro cfgs
  induction cfgs with
  | nil =>
    intro pm pm2 tbl tbl2 tr tr2 h hhex hnd c hc
    cases hc
  | cons c0 rest ih =>
    intro pm pm2 tbl tbl2 tr tr2 h hhex hnd c hc cfg hcfg q hq
    obtain ⟨cfg0, pmMid, hdet, hins, hrest⟩ := pass1_cons_ok h (hhex c0 (by simp))
    rw [stripIds] at hnd
    rcases List.mem_cons.mp hc with rfl | hc2
    · rw [hcfg] at hdet
      injection hdet with he
      subst he
      obtain ⟨s, hs, hlook⟩ := insertPages_found hins hnd.of_append_left q hq
      refine ⟨s, hs, ?_⟩
      rw [pass1_pm_frame hrest (fun c2 hc2 => hhex c2 (by simp [hc2])) _
          (List.disjoint_of_nodup_append hnd (List.mem_map_of_mem _ hq))]
      exact hlook
    · exact ih hrest (fun c2 hc2 => hhex c2 (by simp [hc2])) hnd.of_append_right
        c hc2 cfg hcfg q hq

theorem pass1_pm_vals {w : World} :
    ∀ {cfgs : List DbConf} {pm pm2 : PageMap} {tbl tbl2 : DbTable} {tr tr2 : List Ev},
      pass1 w cfgs pm tbl tr = (.ok (pm2, tbl2), tr2) →
      (∀ c ∈ cfgs, isHex32 (strD c.databaseId) = true) →
      ∀ k v, alookup pm2 k = some v →
        alookup pm k = some v ∨
        ∃ c ∈ cfgs, ∃ cfg s, detectDbConfig c = .ok cfg ∧
          v = renderPermalink cfg.permalinkTpl s := by
  intro cfgs
  induction cfgs with
  | nil =>
    intro pm pm2 tbl tbl2 tr tr2 h hhex k v hv
    unfold pass1 at h
    injection h with h1 h2
    injection h1 with h3
    injection h3 with h4 h5
    rw [← h4] at hv
    exact Or.inl hv
  | cons c0 rest ih =>
    intro pm pm2 tbl tbl2 tr tr2 h hhex k v hv
    obtain ⟨cfg0, pmMid, hdet, hins, hrest⟩ := pass1_cons_ok h (hhex c0 (by simp))
    rcases ih hrest (fun c2 hc2 => hhex c2 (by simp [hc2])) k v hv with hmid | hnew
    · rcases insertPages_vals hins k v hmid with hold | ⟨s, hsv⟩
      · exact Or.inl hold
      · exact Or.inr ⟨c0, by simp, cfg0, s, hdet, hsv⟩
    · obtain ⟨c2, hc2, cfg2, s2, hdet2, hv2⟩ := hnew
      exact Or.inr ⟨c2, by simp [hc2], cfg2, s2, hdet2, hv2⟩

theorem pass1_tbl_found {w : World} :
    ∀ {cfgs : List DbConf} {pm pm2 : PageMap} {tbl tbl2 : DbTable} {tr tr2 : List Ev},
      pass1 w cfgs pm tbl tr = (.ok (pm2, tbl2), tr2) →
      (∀ c ∈ cfgs, isHex32 (strD c.databaseId) = true) →
      (cfgs.map fun c => strD c.databaseId).Nodup →
      ∀ c ∈ cfgs, ∀ cfg, detectDbConfig c = .ok cfg →
        alookup tbl2 (strD c.databaseId)
          = some ⟨w.dbPages (strD c.databaseId), cfg, w.dbTitle (strD c.databaseId)⟩ := by
  intro cfgs
  induction cfgs with
  | nil =>
    intro pm pm2 tbl tbl2 tr tr2 h hhex hnd c hc
    cases hc
  | cons c0 rest ih =>
    intro pm pm2 tbl tbl2 tr tr2 h hhex hnd c hc cfg hcfg
    obtain ⟨cfg0, pmMid, hdet, hins, hrest⟩ := pass1_cons_ok h (hhex c0 (by simp))
    rw [List.map_cons, List.nodup_cons] at hnd
    rcases List.mem_cons.mp hc with rfl | hc2
    · rw [hcfg] at hdet
      injection hdet with he
      subst he
      rw [pass1_tbl_frame hrest (fun c2 hc2 => hhex c2 (by simp [hc2])) _
          (fun c2 hc2 he => hnd.1 (by rw [← he]; exact List.mem_map_of_mem _ hc2))]
      exact alookup_aset_self tbl _ _
    · exact ih hrest (fun c2 hc2 => hhex c2 (by simp [hc2])) hnd.2 c hc2 cfg hcfg

theorem writePage_body {net : String → Option (List Nat)} {cfg : DbCfg}
    {pm : List (String × String)} {p : Page} {st st2 : ImgState}
    {out : String × String × List Tok}
    (h : writePageM net cfg pm p st = .ok (out, st2)) :
    ∃ s stMid, buildSlug p cfg.slugConf = .ok s ∧
      out.1 = cfg.dir ++ "/" ++ s ++ ".md" ∧
      out.2.2 = (pageBody net pm s cfg.imagesDir p.bodyConv stMid).1 := by
  unfold writePageM at h
  cases hb : buildSlug p cfg.slugConf with
  | error e => rw [hb] at h; exact Except.noConfusion h
  | ok s =>
    rw [hb] at h
    simp only [bindE] at h
    cases hf : pageFrontCore cfg p s (renderPermalink cfg.permalinkTpl s) with
    | error e => rw [hf] at h; exact Except.noConfusion h
    | ok front =>
      rw [hf] at h
      simp only [bindE] at h
      cases hcov : coverUrlOf p.cover with
      | none =>
        rw [hcov] at h
        simp only at h
        cases hico : iconUrlOf p.icon with
        | none =>
          rw [hico] at h
          simp only at h
          injection h with h2
          injection h2 with h3 h4
          exact ⟨s, st, rfl, by rw [← h3], by rw [← h3]⟩
        | some u2 =>
          rw [hico] at h
          simp only at h
          injection h with h2
          injection h2 with h3 h4
          exact ⟨s, (saveNotionImage net u2 s "icon" cfg.imagesDir st).2, rfl,
            by rw [← h3], by rw [← h3]⟩
      | some u =>
        rw [hcov] at h
        simp only at h
        cases hico : iconUrlOf p.icon with
        | none =>
          rw [hico] at h
          simp only at h
          injection h with h2
          injection h2 with h3 h4
          exact ⟨s, (saveNotionImage net u s "cover" cfg.imagesDir st).2, rfl,
            by rw [← h3], by rw [← h3]⟩
        | some u2 =>
          rw [hico] at h
          simp only at h
          injection h with h2
          injection h2 with h3 h4
          exact ⟨s, (saveNotionImage net u2 s "icon" cfg.imagesDir
              (saveNotionImage net u s "cover" cfg.imagesDir st).2).2, rfl,
            by rw [← h3], by rw [← h3]⟩

theorem writeAll_event {net : String → Option (List Nat)} {pm : PageMap} {cfg : DbCfg} :
    ∀ {ps : List Page} {md md2 : MdDisk} {st st2 : ImgState}
      {written wr2 : List String} {tr tr2 : List Ev},
      writeAll net pm cfg ps md st written tr = (.ok (), md2, st2, wr2, tr2) →
      ∀ p ∈ ps, ∃ s stMid fm,
        buildSlug p cfg.slugConf = .ok s ∧
        Ev.writeFile (cfg.dir ++ "/" ++ s ++ ".md") fm
          (pageBody net pm s cfg.imagesDir p.bodyConv stMid).1 ∈ tr2 := by
  intro ps
  induction ps with
  | nil =>
    intro md md2 st st2 written wr2 tr tr2 h p hp
    cases hp
  | cons p0 ps ih =>
    intro md md2 st st2 written wr2 tr tr2 h p hp
    unfold writeAll at h
    cases hw : writePageM net cfg pm p0 st with
    | error e =>
      rw [hw] at h
      simp only at h
      injection h with h1 h2
      exact Except.noConfusion h1
    | ok pr =>
      obtain ⟨out, stB⟩ := pr
      rw [hw] at h
      simp only at h
      rcases List.mem_cons.mp hp with rfl | hp2
      · obtain ⟨s, stMid, hs, hpath, hbody⟩ := writePage_body hw
        obtain ⟨suffix, hsuf, hsw⟩ := writeAll_trace_shape net pm cfg ps
          (aset md out.1 out.2) stB
          (if written.contains out.1 then written else written ++ [out.1])
          (tr ++ [.writeFile out.1 out.2.1 out.2.2])
        rw [h] at hsuf
        simp only at hsuf
        refine ⟨s, stMid, out.2.1, hs, ?_⟩
        rw [hsuf, ← hpath, ← hbody]
        simp
      · exact ih h p hp2

theorem pass2_event {w : World} {pm : PageMap} {tbl : DbTable} :
    ∀ {cfgs : List DbConf} {md md2 : MdDisk} {st st2 : ImgState}
      {acc rs : List SyncResult} {tr tr2 : List Ev},
      pass2 w pm tbl cfgs md st acc tr = (.ok rs, md2, st2, tr2) →
      ∀ c ∈ cfgs, ∀ d, alookup tbl (strD c.databaseId) = some d →
        ∀ p ∈ d.pages, ∃ s stMid fm,
          buildSlug p d.cfg.slugConf = .ok s ∧
          Ev.writeFile (d.cfg.dir ++ "/" ++ s ++ ".md") fm
            (pageBody w.net pm s d.cfg.imagesDir p.bodyConv stMid).1 ∈ tr2 := by
  intro cfgs
  induction cfgs with
  | nil =>
    intro md md2 st st2 acc rs tr tr2 h c hc
    cases hc
  | cons c0 rest ih =>
    intro md md2 st st2 acc rs tr tr2 h c hc d hd p hp
    unfold pass2 at h
    cases hl : alookup tbl (strD c0.databaseId) with
    | none =>
      rw [hl] at h
      simp only at h
      injection h with h1 h2
      exact Except.noConfusion h1
    | some d0 =>
      rw [hl] at h
      simp only at h
      rcases hw : writeAll w.net pm d0.cfg d0.pages (cleanStep c0 d0.cfg md st).1
          (cleanStep c0 d0.cfg md st).2.1 [] tr with ⟨res1, mdA, stA, wrA, trA⟩
      rw [hw] at h
      cases res1 with
      | error e =>
        simp only at h
        injection h with h1 h2
        exact Except.noConfusion h1
      | ok u =>
        simp only at h
        obtain ⟨suffix, hsuf, hsw⟩ := pass2_trace_shape w pm tbl rest mdA stA
          (acc ++ [⟨strD c0.databaseId,
            if d0.metaTitle = "" then strD c0.databaseId else d0.metaTitle,
            d0.pages.length, wrA, (cleanStep c0 d0.cfg md st).2.2⟩]) trA
        rcases List.mem_cons.mp hc with rfl | hc2
        · rw [hd] at hl
          injection hl with he
          subst he
          obtain ⟨s, stMid, fm, hs, hev⟩ := writeAll_event hw p hp
          refine ⟨s, stMid, fm, hs, ?_⟩
          rw [h] at hsuf
          simp only at hsuf
          rw [hsuf]
          exact List.mem_append_left _ hev
        · exact ih h c hc2 d hd p hp

theorem exportModel_barrier (w : World) (cfgs : List DbConf) (md : MdDisk)
    (imgDisk : List String) :
    ∃ pre post, (exportModel w cfgs md imgDisk).trace = pre ++ post ∧
      (∀ x ∈ pre, isEnumEv x = true) ∧ (∀ x ∈ post, isWriteEv x = true) := by
  unfold exportModel
  rcases hp : pass1 w cfgs [] [] [] with ⟨res, tr⟩
  obtain ⟨suf1, hsuf1, hall1⟩ := pass1_trace_shape w cfgs [] [] []
  rw [hp] at hsuf1
  simp only at hsuf1
  cases res with
  | error e =>
    simp only
    refine ⟨tr, [], by simp, ?_, by simp⟩
    intro x hx
    rw [hsuf1] at hx
    exact hall1 x (by simpa using hx)
  | ok pmtbl =>
    obtain ⟨pm, tbl⟩ := pmtbl
    simp only
    rcases hq : pass2 w pm tbl cfgs md ⟨[], imgDisk, []⟩ [] tr with ⟨res2, md2, st2, tr2⟩
    obtain ⟨suf2, hsuf2, hall2⟩ :=
      pass2_trace_shape w pm tbl cfgs md ⟨[], imgDisk, []⟩ [] tr
    rw [hq] at hsuf2
    simp only at hsuf2
    refine ⟨tr, suf2, hsuf2, ?_, hall2⟩
    intro x hx
    rw [hsuf1] at hx
    exact hall1 x (by simpa using hx)

/-- C2: the global two-pass barrier and cross-source link resolution.  The
trace of any run is an enumeration prefix (every metadata fetch and page
listing of every source) followed by a write suffix — no write happens
before all enumeration is complete.  And for a successful run over sources
with distinct database ids and globally distinct page ids: if page P of
source X links (non-image) to the Notion URL of page Q of source Y and no
configured permalink renders to that raw URL, then P's emitted body, in
its write event, contains the link rewritten to Y's permalink for Q and
retains no non-image link to the raw URL — regardless of the order of the
sources in the configuration. -/
theorem C2_barrier_and_resolution
    {w : World} {cfgs : List DbConf} {md : MdDisk} {imgDisk : List String}
    {cX cY : DbConf} {cfgX cfgY : DbCfg} {P Q : Page} {toksP : List Tok}
    {alt url : String} {rs : List SyncResult}
    (hrun : (exportModel w cfgs md imgDisk).res = .ok rs)
    (hX : cX ∈ cfgs) (hY : cY ∈ cfgs)
    (hcfgX : detectDbConfig cX = .ok cfgX) (hcfgY : detectDbConfig cY = .ok cfgY)
    (hhexAll : ∀ c ∈ cfgs, isHex32 (strD c.databaseId) = true)
    (hnodupDb : (cfgs.map fun c => strD c.databaseId).Nodup)
    (hnodupIds : (stripIds w cfgs).Nodup)
    (hP : P ∈ w.dbPages (strD cX.databaseId))
    (hQ : Q ∈ w.dbPages (strD cY.databaseId))
    (hbody : P.bodyConv = some toksP)
    (htok : Tok.link false alt url ∈ toksP)
    (hurl : notionUrlId url = some (stripDashes Q.id))
    (hnotperm : ∀ c ∈ cfgs, ∀ cfg s, detectDbConfig c = .ok cfg →
      renderPermalink cfg.permalinkTpl s ≠ url) :
    (∃ pre post, (exportModel w cfgs md imgDisk).trace = pre ++ post ∧
      (∀ x ∈ pre, isEnumEv x = true) ∧ (∀ x ∈ post, isWriteEv x = true)) ∧
    (∃ sP sQ fm body,
      buildSlug P cfgX.slugConf = .ok sP ∧ buildSlug Q cfgY.slugConf = .ok sQ ∧
      Ev.writeFile (cfgX.dir ++ "/" ++ sP ++ ".md") fm body
        ∈ (exportModel w cfgs md imgDisk).trace ∧
      Tok.link false alt (renderPermalink cfgY.permalinkTpl sQ) ∈ body ∧
      (∀ a, Tok.link false a url ∉ body)) := by
  refine ⟨exportModel_barrier w cfgs md imgDisk, ?_⟩
  unfold exportModel at hrun ⊢
  rcases hp : pass1 w cfgs [] [] [] with ⟨res, tr⟩
  rw [hp] at hrun
  cases res with
  | error e =>
    simp only at hrun
    exact Except.noConfusion hrun
  | ok pmtbl =>
    obtain ⟨pm, tbl⟩ := pmtbl
    simp only at hrun ⊢
    rcases hq : pass2 w pm tbl cfgs md ⟨[], imgDisk, []⟩ [] tr with ⟨res2, md2, st2, tr2⟩
    rw [hq] at hrun
    simp only at hrun ⊢
    rw [hrun] at hq
    obtain ⟨sQ, hsQ, hlook⟩ :=
      pass1_pm_found hp hhexAll hnodupIds cY hY cfgY hcfgY Q hQ
    have htblX :=
      pass1_tbl_found hp hhexAll hnodupDb cX hX cfgX hcfgX
    have hvals : ∀ k v, alookup pm k = some v → v ≠ url := by
      intro k v hv
      rcases pass1_pm_vals hp hhexAll k v hv with hold | ⟨c, hc, cfg, s, hdet, rfl⟩
      · exact absurd hold (by simp [alookup])
      · exact hnotperm c hc cfg s hdet
    obtain ⟨sP, stMid, fm, hsP, hev⟩ :=
      pass2_event hq cX hX
        ⟨w.dbPages (strD cX.databaseId), cfgX, w.dbTitle (strD cX.databaseId)⟩
        htblX P hP
    have hb2 : (pageBody w.net pm sP cfgX.imagesDir P.bodyConv stMid).1
        = (rewriteBody w.net pm sP cfgX.imagesDir toksP 0 stMid).1 := by
      rw [hbody]
      rfl
    obtain ⟨hres1, hres2⟩ :=
      rewriteBody_resolves hurl hlook hvals toksP 0 stMid
    refine ⟨sP, sQ, fm, (rewriteBody w.net pm sP cfgX.imagesDir toksP 0 stMid).1,
      hsP, hsQ, ?_, hres1 alt htok, hres2⟩
    rw [← hb2]
    exact hev

/-- A second bare-hex database id. -/
def hexB : String := "bbbbbbbbbbbbbbbbbbbbbbbbbbbbbbbb"

def pidP : String := "dddddddddddddddddddddddddddddddd"

def pidQ : String := "cccccccccccccccccccccccccccccccc"

/-- The raw Notion URL of page Q, as it appears in P's body. -/
def urlQ : String := "https://www.notion.so/cccccccccccccccccccccccccccccccc"

/-- Page P of the blog source: its body links to Q's Notion URL. -/
def pgP : Page :=
  { id := pidP, properties := [], cover := .null, icon := .null,
    bodyConv := some [Tok.link false "to Q" urlQ] }

/-- Page Q of the notes source. -/
def pgQ : Page :=
  { id := pidQ, properties := [], cover := .null, icon := .null,
    bodyConv := some [] }

/-- The notes source. -/
def cNotes : DbConf :=
  { databaseId := some hexB, srcDir := some "src/notes", srcDirImages := none,
    basePath := some "/notes", layout := some "post", excludeProperties := [],
    slug := none, permalink := none, frontMatter := [], cleanBeforeSync := none }

/-- The configuration `detectDbConfig` resolves for `cNotes`. -/
def c2cfg : DbCfg :=
  { dir := "src/notes", imagesDir := "src/images/notion", basePath := "/notes",
    layout := "post", excludeProps := [], slugConf := ⟨"title", "id", some true⟩,
    permalinkTpl := "/notes/{slug}/", fmExtras := [], cleanBeforeSync := true }

/-- A two-source world: the blog holds P, the notes hold Q. -/
def w2 : World :=
  { dbTitle := fun _ => "T",
    dbPages := fun i => if i = hexA then [pgP] else if i = hexB then [pgQ] else [],
    net := fun _ => none }

/-- The run's per-source results. -/
def rsW : List SyncResult :=
  [⟨hexA, "T", 1, ["src/blog/" ++ pidP ++ ".md"], []⟩,
   ⟨hexB, "T", 1, ["src/notes/" ++ pidQ ++ ".md"], []⟩]


/-- C2, witness: the barrier/resolution theorem applied to a concrete
two-source run in which the blog page P links to the notes page Q by its
raw Notion URL. -/
theorem C2_barrier_and_resolution_witness :
    ((exportModel w2 [cBare, cNotes] [] []).res = .ok rsW) ∧
    ((∃ pre post, (exportModel w2 [cBare, cNotes] [] []).trace = pre ++ post ∧
        (∀ x ∈ pre, isEnumEv x = true) ∧ (∀ x ∈ post, isWriteEv x = true)) ∧
      (∃ sP sQ fm body,
        buildSlug pgP c1cfg.slugConf = .ok sP ∧ buildSlug pgQ c2cfg.slugConf = .ok sQ ∧
        Ev.writeFile (c1cfg.dir ++ "/" ++ sP ++ ".md") fm body
          ∈ (exportModel w2 [cBare, cNotes] [] []).trace ∧
        Tok.link false "to Q" (renderPermalink c2cfg.permalinkTpl sQ) ∈ body ∧
        (∀ a, Tok.link false a urlQ ∉ body))) := by
  refine ⟨rfl, ?_⟩
  refine C2_barrier_and_resolution rfl (List.mem_cons_self _ _)
    (List.mem_cons_of_mem _ (List.mem_cons_self _ _)) rfl rfl
    ?_ (by decide) (by decide)
    (by rw [show w2.dbPages (strD cBare.databaseId) = [pgP] from rfl]
        exact List.mem_singleton_self pgP)
    (by rw [show w2.dbPages (strD cNotes.databaseId) = [pgQ] from rfl]
        exact List.mem_singleton_self pgQ)
    rfl (List.mem_singleton_self _) rfl ?_
  · intro c hc
    rcases List.mem_cons.mp hc with rfl | hc2
    · decide
    · rw [List.mem_singleton] at hc2
      subst hc2
      decide
  · intro c hc cfg s hdet
    rcases List.mem_cons.mp hc with rfl | hc2
    · rw [show detectDbConfig cBare = .ok c1cfg from rfl] at hdet
      injection hdet with h4
      subst h4
      intro he
      have h3 := congrArg (fun t : String => t.toList.head?) he
      exact absurd (show (some '/' : Option Char) = some 'h' from h3) (by decide)
    · rw [List.mem_singleton] at hc2
      subst hc2
      rw [show detectDbConfig cNotes = .ok c2cfg from rfl] at hdet
      injection hdet with h4
      subst h4
      intro he
      have h3 := congrArg (fun t : String => t.toList.head?) he
      exact absurd (show (some '/' : Option Char) = some 'h' from h3) (by decide)

end NotionSSG
